import Mathlib

/-!
Cody Scribe: text rendering and chat selection.

A shallow embedding of `src/cody-scribe.js`.

* Strings are lists of characters (`Str`); one list element stands for one
  unit of the JavaScript string. The patterns and tests of the program treat
  all units alike except for ASCII characters and white space, whose units are
  the characters themselves.
* The two regular expressions of `formatText` are written as sequences of
  pattern items and run by a small backtracking matcher that follows the
  ECMAScript rules: leftmost match, greedy and lazy quantifiers tried in
  priority order, global replacement resuming after each match.
* `selectChats` is a step function on the control point and the variables
  captured by its closures; every `await prompt(...)` consumes one input line.
* Built-ins defined outside the program (`toLowerCase`, `Date`) are the fields
  of a `Runtime`, constrained by what the program relies on.
-/

namespace CodyScribe

/-- A JavaScript string, as the list of its units. -/
abbrev Str := List Char

/-! ## String built-ins -/

/-- The units removed by `String.prototype.trim`: ECMAScript `WhiteSpace` and
`LineTerminator`. -/
def isWhiteSpace (c : Char) : Bool :=
  decide (c.toNat ∈ [0x09, 0x0A, 0x0B, 0x0C, 0x0D, 0x20, 0xA0, 0x1680, 0x2028, 0x2029,
    0x202F, 0x205F, 0x3000, 0xFEFF]) || (decide (0x2000 ≤ c.toNat) && decide (c.toNat ≤ 0x200A))

/-- `String.prototype.trimStart`. -/
def trimStart (s : Str) : Str := s.dropWhile isWhiteSpace

/-- `String.prototype.trimEnd`. -/
def trimEnd (s : Str) : Str := (s.reverse.dropWhile isWhiteSpace).reverse

/-- `String.prototype.trim`. -/
def trim (s : Str) : Str := trimEnd (trimStart s)

/-- `String.prototype.startsWith`. -/
def startsWith (s p : Str) : Bool := p.isPrefixOf s

/-- `String.prototype.indexOf`: the first position at which `p` occurs in `s`,
`none` standing for `-1`. -/
def indexOf (s p : Str) : Option Nat :=
  match s with
  | [] => if p.isEmpty then some 0 else none
  | c :: cs => if startsWith (c :: cs) p then some 0 else (indexOf cs p).map (· + 1)

/-- `String.prototype.includes`. -/
def includes (s p : Str) : Bool := (indexOf s p).isSome

/-! ## Regular expressions -/

/-- One item of a pattern. Both quantified items of the source's patterns are
capture groups over a single character class, so a quantified item records
what it consumed. -/
inductive Atom where
  /-- Literal text. -/
  | lit (s : Str)
  /-- A capture group `(cls+)`: one or more, greedy. -/
  | plusGreedy (cls : Char → Bool)
  /-- A capture group `(cls*?)`: zero or more, lazy. -/
  | starLazy (cls : Char → Bool)

/-- Greedy `cls*` followed by the rest of the pattern `k`: consume one more
unit when the class allows it, and only when everything after that fails stop
here and run `k`. Returns the consumed text with the result of `k`. -/
def greedyStar {β : Type} (cls : Char → Bool) (k : Str → Option β) : Str → Option (Str × β)
  | [] => (k []).map (fun r => ([], r))
  | c :: cs =>
    if cls c then
      match greedyStar cls k cs with
      | some (cap, r) => some (c :: cap, r)
      | none => (k (c :: cs)).map (fun r => ([], r))
    else (k (c :: cs)).map (fun r => ([], r))

/-- Lazy `cls*?` followed by the rest of the pattern `k`: run `k` here first,
and only when it fails consume one more unit of the class. -/
def lazyStar {β : Type} (cls : Char → Bool) (k : Str → Option β) : Str → Option (Str × β)
  | [] => (k []).map (fun r => ([], r))
  | c :: cs =>
    match k (c :: cs) with
    | some r => some ([], r)
    | none =>
      if cls c then (lazyStar cls k cs).map (fun x => (c :: x.1, x.2)) else none

/-- Match a pattern at the start of `s`: the captures in group order and the
input left after the match, or `none`. -/
def matchAtoms : List Atom → Str → Option (List Str × Str)
  | [], s => some ([], s)
  | Atom.lit l :: rest, s =>
    if startsWith s l then matchAtoms rest (s.drop l.length) else none
  | Atom.plusGreedy cls :: rest, s =>
    match s with
    | [] => none
    | c :: cs =>
      if cls c then
        (greedyStar cls (matchAtoms rest) cs).map (fun x => ((c :: x.1) :: x.2.1, x.2.2))
      else none
  | Atom.starLazy cls :: rest, s =>
    (lazyStar cls (matchAtoms rest) s).map (fun x => (x.1 :: x.2.1, x.2.2))

/-- The scan of `String.prototype.replace` with a global pattern and a
replacer function. The second argument counts the units of the current match
still to be skipped. At a position outside a match the pattern is tried: on
success the replacement is emitted and the scan resumes after the match (one
unit further when the match is empty), otherwise the unit is copied. -/
def replaceFrom (re : List Atom) (f : List Str → Str) : Str → Nat → Str
  | [], 0 =>
    match matchAtoms re [] with
    | some (caps, _) => f caps
    | none => []
  | [], _ + 1 => []
  | _ :: cs, n + 1 => replaceFrom re f cs n
  | c :: cs, 0 =>
    match matchAtoms re (c :: cs) with
    | some (caps, rest) =>
      if rest.length < (c :: cs).length then
        f caps ++ replaceFrom re f cs ((c :: cs).length - rest.length - 1)
      else f caps ++ c :: replaceFrom re f cs 0
    | none => c :: replaceFrom re f cs 0

/-- The call `text.replace(re, f)` for a pattern `re` with the `g` flag. -/
def replace (re : List Atom) (f : List Str → Str) (text : Str) : Str :=
  replaceFrom re f text 0

/-! ## `formatText` -/

/-- The values of `thinkingOption` that `main` passes to `formatText`. -/
inductive ThinkingOption where
  | keep
  | remove
  | fold
  deriving DecidableEq, Repr

/-- The class `[\s\S]`: every unit. -/
def anyUnit (_ : Char) : Bool := true

/-- The class `[a-zA-Z0-9_-]`. -/
def isLangChar (c : Char) : Bool :=
  (decide ('a' ≤ c) && decide (c ≤ 'z')) || (decide ('A' ≤ c) && decide (c ≤ 'Z')) ||
  (decide ('0' ≤ c) && decide (c ≤ '9')) || c == '_' || c == '-'

/-- The class `[^\n]`. -/
def notNewline (c : Char) : Bool := c != '\n'

/-- The pattern `<think>([\s\S]*?)<\/think>`. -/
def thinkRegex : List Atom :=
  [Atom.lit "<think>".toList, Atom.starLazy anyUnit, Atom.lit "</think>".toList]

/-- The pattern of `codeBlockRegex`: three backticks, `([a-zA-Z0-9_-]+)`, a
colon, `([^\n]+)`, a newline, `([\s\S]*?)`, three backticks. -/
def codeBlockRegex : List Atom :=
  [Atom.lit "```".toList, Atom.plusGreedy isLangChar, Atom.lit ":".toList,
   Atom.plusGreedy notNewline, Atom.lit "\n".toList, Atom.starLazy anyUnit,
   Atom.lit "```".toList]

/-- The text before the folded content in fold mode. -/
def foldOpen : Str := "<details>\n<summary>Assistant\x27s thinking process</summary>\n\n".toList

/-- The text after the folded content in fold mode. -/
def foldClose : Str := "\n</details>".toList

/-- The replacer of the thinking pattern in fold mode. -/
def foldReplacer (caps : List Str) : Str :=
  match caps with
  | content :: _ => foldOpen ++ trim content ++ foldClose
  | [] => []

/-- The replacer of the code-block pattern. -/
def codeBlockReplacer (caps : List Str) : Str :=
  match caps with
  | language :: filePath :: code :: _ =>
    "**File:** `".toList ++ trim filePath ++ "`\n\n```".toList ++ language ++ "\n".toList ++
      code ++ "```".toList
  | _ => []

/-- The function `formatText(text, thinkingOption)`. -/
def formatText (text : Str) (thinkingOption : ThinkingOption) : Str :=
  let processedText :=
    match thinkingOption with
    | ThinkingOption.keep => text
    | ThinkingOption.remove => replace thinkRegex (fun _ => []) text
    | ThinkingOption.fold => replace thinkRegex foldReplacer text
  replace codeBlockRegex codeBlockReplacer processedText


/-- `String.prototype.substring(start, end)`: both bounds are clamped to the
length and swapped when out of order. -/
def substring (s : Str) (start stop : Nat) : Str :=
  let a := min start s.length
  let b := min stop s.length
  (s.drop (min a b)).take (max a b - min a b)

/-- `String.prototype.split(sep)` for a one-unit separator. -/
def split (sep : Char) : Str → List Str
  | [] => [[]]
  | c :: cs =>
    if c = sep then [] :: split sep cs
    else
      match split sep cs with
      | [] => [[c]]
      | piece :: pieces => (c :: piece) :: pieces

/-- The value of `c` as a digit of the given radix, as `parseInt` reads it. -/
def digitValue (radix : Nat) (c : Char) : Option Nat :=
  let v : Option Nat :=
    if '0' ≤ c ∧ c ≤ '9' then some (c.toNat - 48)
    else if 'a' ≤ c ∧ c ≤ 'z' then some (c.toNat - 87)
    else if 'A' ≤ c ∧ c ≤ 'Z' then some (c.toNat - 55)
    else none
  v.filter (fun d => decide (d < radix))

/-- The sign step of `parseInt`: the sign read and the input after it. -/
def stripSign (s : Str) : Int × Str :=
  match s with
  | '-' :: r => (-1, r)
  | '+' :: r => (1, r)
  | _ => (1, s)

/-- The radix step of `parseInt` without a radix argument: a `0x` or `0X`
opening selects radix 16 and is removed, otherwise the radix is 10. -/
def stripRadix (s : Str) : Nat × Str :=
  match s with
  | '0' :: 'x' :: r => (16, r)
  | '0' :: 'X' :: r => (16, r)
  | _ => (10, s)

/-- The global `parseInt(s)` without a radix: leading white space is skipped,
a sign is read, the radix is selected, and the longest run of digits is read;
`none` stands for `NaN`. The value is the mathematical integer, which the
comparisons of the source see exactly for every value that can pass them
(below `2 ^ 53`). -/
def parseInt (s : Str) : Option Int :=
  let signed := stripSign (trimStart s)
  let based := stripRadix signed.2
  let ds := based.2.takeWhile (fun c => (digitValue based.1 c).isSome)
  if ds.isEmpty then none
  else some (signed.1 *
    ((ds.foldl (fun acc c => acc * based.1 + (digitValue based.1 c).getD 0) 0 : Nat) : Int))

/-- `Math.ceil(n / d)` for array lengths `n`. -/
def ceilDiv (n d : Nat) : Nat := (n + (d - 1)) / d

/-- The built-ins whose definition lies outside the program: Unicode case
mapping and the `Date` object. `parseDate s` is the time value of
`new Date(s)`, `none` for an invalid date. -/
structure Runtime where
  /-- `String.prototype.toLowerCase`. -/
  toLowerCase : Str → Str
  /-- On ASCII text `toLowerCase` maps `A`-`Z` to `a`-`z` and nothing else. -/
  toLowerCase_ascii : ∀ s : Str, (∀ c ∈ s, c.toNat < 128) → toLowerCase s = s.map Char.toLower
  /-- Case mapping never empties a string. -/
  toLowerCase_ne_nil : ∀ s : Str, s ≠ [] → toLowerCase s ≠ []
  /-- The time value of `new Date(s)`. -/
  parseDate : Str → Option Int
  /-- `Date.prototype.toISOString` on a valid time value. -/
  toISOString : Int → Str
  /-- `Date.prototype.toLocaleString`, also defined on an invalid date. -/
  toLocaleString : Option Int → Str

/-! ## Chat records -/

/-- A message object: its `text` and `model` fields, `none` when absent. -/
structure Message where
  text : Option Str
  model : Option Str
  deriving DecidableEq, Repr

/-- An interaction object. -/
structure Interaction where
  humanMessage : Option Message
  assistantMessage : Option Message
  deriving DecidableEq, Repr

/-- A chat object of the parsed array. `ref` is the identity of the object:
`Array.prototype.indexOf` compares objects by identity, and `JSON.parse` gives
every element of the array an identity of its own. -/
structure Chat where
  ref : Nat
  id : Str
  interactions : Option (List Interaction)
  deriving DecidableEq, Repr

/-- The guard `m && m.text`: the text of a present message with a non-empty
text. -/
def truthyText (m : Option Message) : Option Str :=
  match m with
  | some msg =>
    match msg.text with
    | some t => if t.isEmpty then none else some t
    | none => none
  | none => none

/-- The test `chat.interactions && chat.interactions.length > 0`. -/
def hasInteractions (chat : Chat) : Bool :=
  match chat.interactions with
  | some l => decide (l.length > 0)
  | none => false

/-- `chatsData.indexOf(chat)`: the first position holding the same object, or
`-1`. -/
def chatIndexOf : List Chat → Chat → Int
  | [], _ => -1
  | c :: cs, chat =>
    if c.ref = chat.ref then 0
    else
      let i := chatIndexOf cs chat
      if i = -1 then -1 else i + 1

/-! ## `selectChats` -/

/-- The constant `PAGE_SIZE`. -/
def PAGE_SIZE : Nat := 10

/-- The variables captured by the closures of `selectChats`. -/
structure State where
  currentPage : Nat
  filteredChats : List Chat
  filterKeyword : Str
  dateFilter : Str
  showEmptyChats : Bool
  deriving DecidableEq, Repr

/-- The state at the first pass of the loop. -/
def initialState (chatsData : List Chat) : State :=
  { currentPage := 1, filteredChats := chatsData, filterKeyword := [], dateFilter := [],
    showEmptyChats := false }

/-- The list `displayedChats` of `showChatsPage`. -/
def displayedChats (st : State) : List Chat :=
  if st.showEmptyChats then st.filteredChats else st.filteredChats.filter hasInteractions

/-- The value `totalPages` of `showChatsPage`. -/
def totalPages (st : State) : Nat := ceilDiv (displayedChats st).length PAGE_SIZE

/-- The callback of `chatsData.filter` in `applyKeywordFilter`. -/
def keywordMatches (rt : Runtime) (filterKeyword : Str) (chat : Chat) : Bool :=
  match chat.interactions with
  | some interactions =>
    if interactions.length > 0 then
      if interactions.any (fun interaction =>
          match truthyText interaction.humanMessage with
          | some t => includes (rt.toLowerCase t) (rt.toLowerCase filterKeyword)
          | none => false) then true
      else if interactions.any (fun interaction =>
          match truthyText interaction.assistantMessage with
          | some t => includes (rt.toLowerCase t) (rt.toLowerCase filterKeyword)
          | none => false) then true
      else false
    else false
  | none => false

/-- The body of `applyKeywordFilter` after its prompt returned `answer`. -/
def applyKeywordFilter (rt : Runtime) (chatsData : List Chat) (st : State) (answer : Str) :
    State :=
  let st1 := { st with filterKeyword := answer }
  if answer.isEmpty then st1
  else { st1 with filteredChats := chatsData.filter (keywordMatches rt answer), currentPage := 1 }

/-- The callback of `chatsData.filter` in `applyDateFilter`; `none` when
`toISOString` throws on a chat whose date is invalid. -/
def dateMatches (rt : Runtime) (operator : Option Char) (dateString : Str) (filterDate : Int)
    (chat : Chat) : Option Bool :=
  let chatDate := rt.parseDate chat.id
  match operator with
  | some '>' =>
    match chatDate with
    | some d => some (decide (d > filterDate))
    | none => some false
  | some '<' =>
    match chatDate with
    | some d => some (decide (d < filterDate))
    | none => some false
  | _ =>
    match chatDate with
    | some d => some (decide (substring (rt.toISOString d) 0 10 = dateString))
    | none => none

/-- `Array.prototype.filter` with a callback that may throw: the first throw
ends the whole call. -/
def filterThrowing (p : Chat → Option Bool) : List Chat → Option (List Chat)
  | [] => some []
  | c :: cs =>
    match p c with
    | none => none
    | some keepIt =>
      match filterThrowing p cs with
      | none => none
      | some r => some (if keepIt then c :: r else r)

/-- What the program printed before a `Press Enter to continue...` prompt. -/
inductive Notice where
  | invalidPageNumber (totalPages : Nat)
  | invalidDateFormat
  | invalidSelection
  | searchResults (lines : List (Nat × Str × Str)) (query : Str)
  deriving DecidableEq, Repr

/-- The outcome of the body of `applyDateFilter` after its prompt returned
`answer`. -/
inductive DateOutcome where
  | applied (st : State)
  | invalid (st : State)
  | threw (st : State)
  deriving DecidableEq, Repr

/-- The body of `applyDateFilter` after its prompt returned `answer`. -/
def applyDateFilter (rt : Runtime) (chatsData : List Chat) (st : State) (answer : Str) :
    DateOutcome :=
  let st1 := { st with dateFilter := answer }
  if answer.isEmpty then DateOutcome.applied st1
  else
    let hasOperator := startsWith answer ">".toList || startsWith answer "<".toList
    let operator : Option Char := if hasOperator then answer.head? else none
    let dateString : Str := if hasOperator then trim (answer.drop 1) else answer
    match rt.parseDate dateString with
    | some filterDate =>
      match filterThrowing (dateMatches rt operator dateString filterDate) chatsData with
      | some kept => DateOutcome.applied { st1 with filteredChats := kept, currentPage := 1 }
      | none => DateOutcome.threw st1
    | none => DateOutcome.invalid st1

/-- The context shown by `searchChat` for a match at `position`. -/
def matchContext (text query : Str) (position : Nat) : Str :=
  let start := position - 20
  let stop := min text.length (position + query.length + 20)
  "...".toList ++ substring text start stop ++ "...".toList

/-- The two tests `searchChat` makes on one interaction while nothing was
found yet: the human message, then the assistant message. -/
def searchInteraction (rt : Runtime) (query : Str) (interaction : Interaction) : Option Str :=
  let human : Option Str :=
    match truthyText interaction.humanMessage with
    | some text =>
      (indexOf (rt.toLowerCase text) (rt.toLowerCase query)).map (matchContext text query)
    | none => none
  match human with
  | some m => some m
  | none =>
    match truthyText interaction.assistantMessage with
    | some text =>
      (indexOf (rt.toLowerCase text) (rt.toLowerCase query)).map (matchContext text query)
    | none => none

/-- The value of `matchText` after the `forEach` over the interactions of one
chat, `none` when `found` stayed false. -/
def searchOneChat (rt : Runtime) (query : Str) (chat : Chat) : Option Str :=
  match chat.interactions with
  | some interactions => interactions.findSome? (searchInteraction rt query)
  | none => none

/-- The result lines of `searchChat`: for each chat with a match its 1-based
position in `chatsData`, its date as displayed and the context. -/
def searchLines (rt : Runtime) (query : Str) : List Chat → Nat → List (Nat × Str × Str)
  | [], _ => []
  | chat :: rest, index =>
    match searchOneChat rt query chat with
    | some matchText =>
      (index + 1, rt.toLocaleString (rt.parseDate chat.id), matchText)
        :: searchLines rt query rest (index + 1)
    | none => searchLines rt query rest (index + 1)

/-- The point at which `selectChats` is suspended, waiting for a line. -/
inductive Ctl where
  /-- At `prompt('> ')`. -/
  | command
  /-- At the page-number prompt of `j`. -/
  | pageNumber
  /-- At the prompt of `applyKeywordFilter`. -/
  | keyword
  /-- At the prompt of `applyDateFilter`. -/
  | date
  /-- At the prompt of `searchChat`. -/
  | searchTerm
  /-- At a `Press Enter to continue...` prompt, after the notice. -/
  | pressEnter (shown : Notice)
  /-- Returned `selectedIndices`. -/
  | done (selectedIndices : List Int)
  /-- Left by an exception. -/
  | threw
  deriving DecidableEq, Repr

/-- A control point with the variables. -/
structure Config where
  ctl : Ctl
  st : State
  deriving DecidableEq, Repr

/-- The selection branch of the loop: the comma-separated numbers of
`command`, each minus one, kept when inside `chatsData`. -/
def validNums (chatsData : List Chat) (command : Str) : List Int :=
  let nums : List (Option Int) :=
    (split ',' command).map (fun num => (parseInt (trim num)).map (fun v => v - 1))
  nums.filterMap (fun num =>
    match num with
    | some v => if v ≥ 0 ∧ v < (chatsData.length : Int) then some v else none
    | none => none)

/-- One pass of the `while` loop from `prompt('> ')` returning `input`, up to
the next prompt. -/
def onCommand (chatsData : List Chat) (st : State) (command : Str) : Config :=
  if command = "n".toList then
    if st.currentPage < ceilDiv st.filteredChats.length PAGE_SIZE then
      { ctl := Ctl.command, st := { st with currentPage := st.currentPage + 1 } }
    else { ctl := Ctl.command, st := st }
  else if command = "p".toList then
    if st.currentPage > 1 then
      { ctl := Ctl.command, st := { st with currentPage := st.currentPage - 1 } }
    else { ctl := Ctl.command, st := st }
  else if command = "j".toList then { ctl := Ctl.pageNumber, st := st }
  else if command = "f".toList then { ctl := Ctl.keyword, st := st }
  else if command = "d".toList then { ctl := Ctl.date, st := st }
  else if command = "e".toList then
    { ctl := Ctl.command, st := { st with showEmptyChats := !st.showEmptyChats, currentPage := 1 } }
  else if command = "r".toList then
    { ctl := Ctl.command,
      st := { st with filteredChats := chatsData, filterKeyword := [], dateFilter := [],
                      currentPage := 1 } }
  else if command = "s".toList then { ctl := Ctl.searchTerm, st := st }
  else if command = "all".toList then
    { ctl := Ctl.done (st.filteredChats.map (chatIndexOf chatsData)), st := st }
  else if command = "q".toList then { ctl := Ctl.done [], st := st }
  else
    let valid := validNums chatsData command
    if valid.length > 0 then { ctl := Ctl.done valid, st := st }
    else { ctl := Ctl.pressEnter Notice.invalidSelection, st := st }

/-- The `j` branch after its prompt returned `pageNum`. -/
def onPageNumber (st : State) (pageNum : Str) : Config :=
  let total := ceilDiv st.filteredChats.length PAGE_SIZE
  match parseInt (trim pageNum) with
  | some pageInt =>
    if pageInt ≥ 1 ∧ pageInt ≤ (total : Int) then
      { ctl := Ctl.command, st := { st with currentPage := pageInt.toNat } }
    else { ctl := Ctl.pressEnter (Notice.invalidPageNumber total), st := st }
  | none => { ctl := Ctl.pressEnter (Notice.invalidPageNumber total), st := st }

/-- The transition of `selectChats` on one input line: the code between the
prompt that returned `line` and the next prompt. -/
def step (rt : Runtime) (chatsData : List Chat) (cfg : Config) (line : Str) : Config :=
  match cfg.ctl with
  | Ctl.command => onCommand chatsData cfg.st (trim (rt.toLowerCase line))
  | Ctl.pageNumber => onPageNumber cfg.st line
  | Ctl.keyword => { ctl := Ctl.command, st := applyKeywordFilter rt chatsData cfg.st line }
  | Ctl.date =>
    match applyDateFilter rt chatsData cfg.st line with
    | DateOutcome.applied st => { ctl := Ctl.command, st := st }
    | DateOutcome.invalid st => { ctl := Ctl.pressEnter Notice.invalidDateFormat, st := st }
    | DateOutcome.threw st => { ctl := Ctl.threw, st := st }
  | Ctl.searchTerm =>
    if line.isEmpty then { ctl := Ctl.command, st := cfg.st }
    else
      { ctl := Ctl.pressEnter (Notice.searchResults (searchLines rt line chatsData 0) line),
        st := cfg.st }
  | Ctl.pressEnter _ => { ctl := Ctl.command, st := cfg.st }
  | Ctl.done selectedIndices => { ctl := Ctl.done selectedIndices, st := cfg.st }
  | Ctl.threw => { ctl := Ctl.threw, st := cfg.st }

/-- The configuration when `selectChats` reaches its first prompt. -/
def initialConfig (chatsData : List Chat) : Config :=
  { ctl := Ctl.command, st := initialState chatsData }

/-- The configuration of `selectChats(chatsData)` after the given input
lines. -/
def run (rt : Runtime) (chatsData : List Chat) (lines : List Str) : Config :=
  lines.foldl (step rt chatsData) (initialConfig chatsData)

/-- The value returned by `selectChats(chatsData)` on the given input lines,
`none` while the loop has not returned. -/
def selectChats (rt : Runtime) (chatsData : List Chat) (lines : List Str) : Option (List Int) :=
  match (run rt chatsData lines).ctl with
  | Ctl.done selectedIndices => some selectedIndices
  | _ => none

/-! ## Definitions used to state the properties -/

/-- The backtick character. -/
def backtick : Char := Char.ofNat 96

/-- The number of capture groups of a pattern. -/
def capCount : List Atom → Nat
  | [] => 0
  | Atom.lit _ :: rest => capCount rest
  | Atom.plusGreedy _ :: rest => capCount rest + 1
  | Atom.starLazy _ :: rest => capCount rest + 1

/-- The decimal numeral of an integer, as a user types it. -/
def decimal : Int → Str
  | Int.ofNat m => Nat.toDigits 10 m
  | Int.negSucc m => '-' :: Nat.toDigits 10 (m + 1)

/-- The input line made of the given integers separated by commas. -/
def commaList (ns : List Int) : Str := [','].intercalate (ns.map decimal)

/-- The text of a message, when the message and its text are present. -/
def messageText (m : Option Message) : Option Str := m.bind (fun msg => msg.text)

/-- The keyword filter in the spec's words: the record has at least one
interaction whose human-message text or assistant-message text contains `s`
as a case-insensitive substring. -/
def MatchesKeyword (rt : Runtime) (s : Str) (chat : Chat) : Prop :=
  ∃ interaction ∈ chat.interactions.getD [],
    ∃ text ∈ [messageText interaction.humanMessage,
              messageText interaction.assistantMessage].filterMap id,
      rt.toLowerCase s <:+: rt.toLowerCase text

instance (rt : Runtime) (s : Str) (chat : Chat) : Decidable (MatchesKeyword rt s chat) := by
  unfold MatchesKeyword
  infer_instance

/-- The filtered view a date filter produced, `none` when it did not produce
one (the date was rejected, or the filter callback threw). -/
def DateOutcome.appliedView : DateOutcome → Option (List Chat)
  | DateOutcome.applied st => some st.filteredChats
  | DateOutcome.invalid _ => none
  | DateOutcome.threw _ => none

/-- The invariant of the loop: the filtered view holds objects of
`chatsData`, and a returned selection holds positions of `chatsData`. -/
def Inv (chatsData : List Chat) (cfg : Config) : Prop :=
  (∀ c ∈ cfg.st.filteredChats, c ∈ chatsData) ∧
  (∀ sel, cfg.ctl = Ctl.done sel → ∀ i ∈ sel, 0 ≤ i ∧ i < (chatsData.length : Int))

/-- The units of a comma-separated list of decimal numerals. -/
def isNumChar (c : Char) : Bool := (digitValue 10 c).isSome || c == '-' || c == ','

/-- The value `parseInt` reads from a run of decimal digits. -/
def decimalValue (ds : Str) : Nat :=
  ds.foldl (fun acc c => acc * 10 + (digitValue 10 c).getD 0) 0

/-! ### A sample runtime

An instance of `Runtime` on which examples are evaluated: ASCII case mapping
and the ISO forms `YYYY-MM-DD` and `YYYY-MM-DDTHH:mm:ss.sssZ` of a date. -/

/-- The value of a run of decimal digits, `none` when a unit is not a digit. -/
def digitsValue (ds : Str) : Option Nat :=
  ds.foldl (fun acc c => acc.bind (fun a => (digitValue 10 c).map (fun d => a * 10 + d))) (some 0)

/-- The number of days of a month. -/
def daysInMonth (y m : Nat) : Nat :=
  if m = 2 then (if (y % 4 = 0 ∧ y % 100 ≠ 0) ∨ y % 400 = 0 then 29 else 28)
  else if m = 4 ∨ m = 6 ∨ m = 9 ∨ m = 11 then 30
  else 31

/-- The day number of a civil date, counted from 1970-01-01. -/
def daysFromCivil (y m d : Nat) : Int :=
  let y1 : Nat := if m ≤ 2 then y + 399 else y + 400
  let era := y1 / 400
  let yoe := y1 % 400
  let mp := if m > 2 then m - 3 else m + 9
  let doy := (153 * mp + 2) / 5 + d - 1
  let doe := yoe * 365 + yoe / 4 - yoe / 100 + doy
  ((era * 146097 + doe : Nat) : Int) - 719468 - 146097

/-- The civil date `(year, month, day)` of a day number. -/
def civilFromDays (days : Int) : Nat × Nat × Nat :=
  let z : Nat := (days + 719468).toNat
  let era := z / 146097
  let doe := z % 146097
  let yoe := (doe - doe / 1460 + doe / 36524 - doe / 146096) / 365
  let doy := doe - (365 * yoe + yoe / 4 - yoe / 100)
  let mp := (5 * doy + 2) / 153
  let d := doy - (153 * mp + 2) / 5 + 1
  let m := if mp < 10 then mp + 3 else mp - 9
  let y := yoe + era * 400
  (if m ≤ 2 then y + 1 else y, m, d)

/-- The time value of the date part `YYYY-MM-DD`. -/
def parseIsoDay (s : Str) : Option Int :=
  match s with
  | [y1, y2, y3, y4, '-', m1, m2, '-', d1, d2] =>
    match digitsValue [y1, y2, y3, y4], digitsValue [m1, m2], digitsValue [d1, d2] with
    | some y, some m, some d =>
      if 1 ≤ m ∧ m ≤ 12 ∧ 1 ≤ d ∧ d ≤ daysInMonth y m then
        some (daysFromCivil y m d * 86400000)
      else none
    | _, _, _ => none
  | _ => none

/-- The milliseconds of the time part `HH:mm:ss.sssZ`. -/
def parseIsoTime (s : Str) : Option Int :=
  match s with
  | [h1, h2, ':', n1, n2, ':', s1, s2, '.', f1, f2, f3, 'Z'] =>
    match digitsValue [h1, h2], digitsValue [n1, n2], digitsValue [s1, s2],
        digitsValue [f1, f2, f3] with
    | some h, some n, some sec, some f =>
      if h < 24 ∧ n < 60 ∧ sec < 60 then
        some (((h * 3600000 + n * 60000 + sec * 1000 + f : Nat) : Int))
      else none
    | _, _, _, _ => none
  | _ => none

/-- The sample `parseDate`. -/
def sampleParseDate (s : Str) : Option Int :=
  if s.length = 10 then parseIsoDay s
  else
    match parseIsoDay (s.take 10), s.drop 10 with
    | some day, 'T' :: time => (parseIsoTime time).map (fun t => day + t)
    | _, _ => none

/-- A number written with at least `width` decimal digits. -/
def padded (width n : Nat) : Str :=
  let ds := Nat.toDigits 10 n
  List.replicate (width - ds.length) '0' ++ ds

/-- The sample `toISOString`, for years 0 to 9999. -/
def sampleToISOString (t : Int) : Str :=
  let days := t / 86400000
  let ms := (t % 86400000).toNat
  let ymd := civilFromDays days
  padded 4 ymd.1 ++ "-".toList ++ padded 2 ymd.2.1 ++ "-".toList ++ padded 2 ymd.2.2
    ++ "T".toList ++ padded 2 (ms / 3600000) ++ ":".toList ++ padded 2 (ms / 60000 % 60)
    ++ ":".toList ++ padded 2 (ms / 1000 % 60) ++ ".".toList ++ padded 3 (ms % 1000)
    ++ "Z".toList

/-- The sample runtime. -/
def sampleRuntime : Runtime where
  toLowerCase := fun s => s.map Char.toLower
  toLowerCase_ascii := fun _ _ => rfl
  toLowerCase_ne_nil := fun s h => by
    cases s with
    | nil => exact absurd rfl h
    | cons c cs => simp
  parseDate := sampleParseDate
  toISOString := sampleToISOString
  toLocaleString := fun d =>
    match d with
    | some t => sampleToISOString t
    | none => "Invalid Date".toList

/-! ### Sample records -/

/-- A message with a text and no model tag. -/
def plainMessage (text : String) : Option Message := some { text := some text.toList, model := none }

/-- Five records: three with interactions, one with an empty `interactions`
array and one without the field. -/
def sampleChats : List Chat :=
  [ { ref := 10, id := "2024-05-01T09:00:00.000Z".toList,
      interactions := some [{ humanMessage := plainMessage "How do I sort a list?",
                              assistantMessage := plainMessage "Use a merge sort." }] },
    { ref := 11, id := "2024-05-02T10:30:00.000Z".toList, interactions := some [] },
    { ref := 12, id := "2024-05-02T18:00:00.000Z".toList,
      interactions := some [{ humanMessage := plainMessage "Explain monads",
                              assistantMessage := plainMessage "A Monad chains steps." }] },
    { ref := 13, id := "2024-05-03T08:15:00.000Z".toList, interactions := none },
    { ref := 14, id := "2024-06-01T12:00:00.000Z".toList,
      interactions := some [{ humanMessage := plainMessage "SORTING again",
                              assistantMessage := none }] } ]

/-- Eleven records: one with an interaction, then ten without any. -/
def elevenChats : List Chat :=
  { ref := 0, id := "2024-05-01T09:00:00.000Z".toList,
    interactions := some [{ humanMessage := plainMessage "hello", assistantMessage := none }] }
  :: (List.range 10).map (fun k =>
      { ref := k + 1, id := "2024-05-02T09:00:00.000Z".toList, interactions := some [] })

/-! ## `showChatsPage` -/

/-- The value `startIdx` of `showChatsPage`. The current page is at least 1
in every state the loop reaches, so the subtraction is exact. -/
def startIdx (st : State) : Nat := (st.currentPage - 1) * PAGE_SIZE

/-- The value `endIdx` of `showChatsPage`. -/
def endIdx (st : State) : Nat := min (startIdx st + PAGE_SIZE) (displayedChats st).length

/-- The chats visited by the `for` loop of `showChatsPage`, `i` running from
`startIdx` to `endIdx` exclusive. -/
def pageChats (st : State) : List Chat :=
  (List.range' (startIdx st) (endIdx st - startIdx st)).filterMap
    (fun i => (displayedChats st)[i]?)

/-- One line of the chat list: `originalIndex`, the date as displayed,
`messageCount` and `previewText`. -/
structure PageLine where
  originalIndex : Int
  date : Str
  messageCount : Nat
  previewText : Str
  deriving DecidableEq, Repr

/-- The value `previewText` for a chat. -/
def previewText (chat : Chat) : Str :=
  match chat.interactions with
  | some (first :: _) =>
    match truthyText first.humanMessage with
    | some text => substring text 0 60 ++ (if text.length > 60 then "...".toList else [])
    | none => []
  | _ => []

/-- The line `showChatsPage` prints for a chat. -/
def pageLine (rt : Runtime) (chatsData : List Chat) (chat : Chat) : PageLine :=
  { originalIndex := chatIndexOf chatsData chat + 1,
    date := rt.toLocaleString (rt.parseDate chat.id),
    messageCount := match chat.interactions with
      | some l => l.length
      | none => 0,
    previewText := previewText chat }

/-- The chat lines printed by `showChatsPage`. -/
def showChatsPage (rt : Runtime) (chatsData : List Chat) (st : State) : List PageLine :=
  (pageChats st).map (pageLine rt chatsData)

/-! ## `main`: the output path and the generated document -/

/-- `String.prototype.replace` with a string pattern: the first occurrence is
replaced. The replacement texts of the source hold no `$`. -/
def replaceFirst (s pattern replacement : Str) : Str :=
  match indexOf s pattern with
  | some i => s.take i ++ replacement ++ s.drop (i + pattern.length)
  | none => s

/-- The initial value of `outputFilePath`:
`flags.output || jsonFilePath.replace('.json', '.md')`. -/
def outputFilePath (flagsOutput : Option Str) (jsonFilePath : Str) : Str :=
  match flagsOutput with
  | some o => if o.isEmpty then replaceFirst jsonFilePath ".json".toList ".md".toList else o
  | none => replaceFirst jsonFilePath ".json".toList ".md".toList

/-- The answers to the formatting prompts of `main`. -/
structure ExportOptions where
  includeTimestamps : Bool
  includeModelInfo : Bool
  thinkingOption : ThinkingOption
  deriving DecidableEq, Repr

/-- The guard `includeModelInfo && interaction.assistantMessage.model`: the
model tag to print. -/
def modelTag (opts : ExportOptions) (m : Option Message) : Option Str :=
  if opts.includeModelInfo then
    match m with
    | some msg =>
      match msg.model with
      | some tag => if tag.isEmpty then none else some tag
      | none => none
    | none => none
  else none

/-- The text appended for one interaction: the human block, the assistant
block, the separator. -/
def renderInteraction (opts : ExportOptions) (interaction : Interaction) : Str :=
  (match truthyText interaction.humanMessage with
    | some text => "### Human:\n\n".toList ++ formatText text opts.thinkingOption ++ "\n\n".toList
    | none => [])
  ++ (match truthyText interaction.assistantMessage with
    | some text =>
      "### Assistant:".toList
        ++ (match modelTag opts interaction.assistantMessage with
            | some tag => " (".toList ++ tag ++ ")".toList
            | none => [])
        ++ "\n\n".toList ++ formatText text opts.thinkingOption ++ "\n\n".toList
    | none => [])
  ++ "---\n\n".toList

/-- The header line of a chat section, `count` being the position in
`selectedIndices`. -/
def chatHeader (rt : Runtime) (opts : ExportOptions) (chat : Chat) (count : Nat) : Str :=
  "## Chat ".toList ++ Nat.toDigits 10 (count + 1) ++ " - ".toList
    ++ (if opts.includeTimestamps then rt.toLocaleString (rt.parseDate chat.id) else [])
    ++ "\n\n".toList

/-- The body of a chat section: its interactions in their order. -/
def chatBody (opts : ExportOptions) (interactions : List Interaction) : Str :=
  (interactions.map (renderInteraction opts)).flatten

/-- The element `chatsData[idx]`, `none` for `undefined`. -/
def chatAt (chatsData : List Chat) (idx : Int) : Option Chat :=
  if idx < 0 then none else chatsData[idx.toNat]?

/-- The text appended by one pass of `selectedIndices.forEach`; `none` when
the pass throws a `TypeError`: on `chat.id` for an index outside the array,
or on `chat.interactions.forEach` for a chat without `interactions`. -/
def renderChat (rt : Runtime) (chatsData : List Chat) (opts : ExportOptions) (idx : Int)
    (count : Nat) : Option Str :=
  match chatAt chatsData idx with
  | some chat =>
    match chat.interactions with
    | some interactions => some (chatHeader rt opts chat count ++ chatBody opts interactions)
    | none => none
  | none => none

/-- The text appended by `selectedIndices.forEach` from position `count` on;
`none` when a pass throws. -/
def renderChats (rt : Runtime) (chatsData : List Chat) (opts : ExportOptions) :
    List Int → Nat → Option Str
  | [], _ => some []
  | idx :: rest, count =>
    match renderChat rt chatsData opts idx count with
    | some sectionText =>
      match renderChats rt chatsData opts rest (count + 1) with
      | some more => some (sectionText ++ more)
      | none => none
    | none => none

/-- The value of `markdownContent` that `main` writes to the output file,
`none` when generating it throws (nothing is written then). -/
def generateMarkdown (rt : Runtime) (chatsData : List Chat) (opts : ExportOptions)
    (selectedIndices : List Int) : Option Str :=
  (renderChats rt chatsData opts selectedIndices 0).map
    (fun sections => "# Cody Chat Exports\n\n".toList ++ sections)

/-- The sample runtime with the case mapping of U+0130 added: ECMAScript maps
it to `i` followed by U+0307, two units for one. -/
def dottedRuntime : Runtime where
  toLowerCase := fun s =>
    (s.map (fun c => if c = Char.ofNat 0x130 then ['i', Char.ofNat 0x307] else [c.toLower])).flatten
  toLowerCase_ascii := fun s h => by
    induction s with
    | nil => rfl
    | cons c cs ih =>
      have hc : c ≠ Char.ofNat 0x130 := by
        intro e
        have := h c (by simp)
        rw [e] at this
        exact absurd this (by decide)
      have ih' := ih (fun d hd => h d (by simp [hd]))
      simp only [List.map_cons, List.flatten_cons, hc, if_false, List.singleton_append] at ih' ⊢
      rw [ih']
  toLowerCase_ne_nil := fun s h => by
    cases s with
    | nil => exact absurd rfl h
    | cons c cs =>
      simp only [List.map_cons, List.flatten_cons]
      split <;> simp
  parseDate := sampleParseDate
  toISOString := sampleToISOString
  toLocaleString := sampleRuntime.toLocaleString

/-- Twelve records of which the third, the seventh and the eleventh have no
interaction. -/
def twelveChats : List Chat :=
  (List.range 12).map (fun k =>
    { ref := k, id := "2024-05-01T09:00:00.000Z".toList,
      interactions :=
        if k % 4 = 2 then some []
        else some [{ humanMessage := plainMessage "hello", assistantMessage := none }] })

/-- A record whose human message is 21 times U+0130 followed by `x`. -/
def dottedChats : List Chat :=
  [{ ref := 0, id := "2024-05-01T09:00:00.000Z".toList,
     interactions := some [{
       humanMessage := some { text := some (List.replicate 21 (Char.ofNat 0x130) ++ ['x']),
                              model := none },
       assistantMessage := none }] }]

/-- The command tokens of the selection loop. -/
def commandTokens : List Str :=
  ["n".toList, "p".toList, "j".toList, "f".toList, "d".toList, "e".toList, "r".toList,
   "s".toList, "all".toList, "q".toList]

/-- The section the spec describes for the chosen index `idx` at position
`count`: the header numbered `count + 1`, then the interactions of the record
in their order, none for a record without `interactions`. -/
def expectedSection (rt : Runtime) (chatsData : List Chat) (opts : ExportOptions)
    (count : Nat) (idx : Int) : Str :=
  match chatAt chatsData idx with
  | some chat => chatHeader rt opts chat count ++ chatBody opts (chat.interactions.getD [])
  | none => []

/-- The document the spec describes for a selection: the title, then one
section per chosen index, in selection order. -/
def expectedDocument (rt : Runtime) (chatsData : List Chat) (opts : ExportOptions)
    (selectedIndices : List Int) : Str :=
  "# Cody Chat Exports\n\n".toList
    ++ ((selectedIndices.enumFrom 0).map
        (fun p => expectedSection rt chatsData opts p.1 p.2)).flatten

/-- The sign texts `parseInt` accepts before a numeral, with their values. -/
def signTexts : List (Str × Int) := [([], 1), ("+".toList, 1), ("-".toList, -1)]

/-- The value of a run of hexadecimal digits. -/
def hexValue (ds : Str) : Nat :=
  ds.foldl (fun acc c => acc * 16 + (digitValue 16 c).getD 0) 0

/-- The part of `parseInt` after the sign: the radix step, the longest run of
digits and the signed value. -/
def readBody (sign : Int) (body : Str) : Option Int :=
  let based := stripRadix body
  let ds := based.2.takeWhile (fun c => (digitValue based.1 c).isSome)
  if ds.isEmpty then none
  else some (sign *
    ((ds.foldl (fun acc c => acc * based.1 + (digitValue based.1 c).getD 0) 0 : Nat) : Int))

/-- The start marker of a thinking block. -/
def openMarker : Str := "<think>".toList

/-- The end marker of a thinking block. -/
def closeMarker : Str := "</think>".toList

/-- A text holds a thinking region: it can be cut in two so that `<think>`
occurs before the cut and `</think>` after it. -/
def HasRegion (s : Str) : Prop :=
  ∃ s1 s2, s = s1 ++ s2 ∧ openMarker <:+: s1 ∧ closeMarker <:+: s2

/-- The unfinished beginnings of the start marker. -/
def unfinishedOpenings : List Str :=
  ["<".toList, "<t".toList, "<th".toList, "<thi".toList, "<thin".toList, "<think".toList]

/-! ## Lemmas on the matcher -/

theorem matchAtoms_lit_none (hd : Char) (l : Str) (rest : List Atom) (c : Char) (cs : Str)
    (h : c ≠ hd) : matchAtoms (Atom.lit (hd :: l) :: rest) (c :: cs) = none := by
  simp [matchAtoms, startsWith, List.isPrefixOf, h.symm]

theorem matchAtoms_lit_nil (hd : Char) (l : Str) (rest : List Atom) :
    matchAtoms (Atom.lit (hd :: l) :: rest) [] = none := by
  simp [matchAtoms, startsWith, List.isPrefixOf]

theorem matchAtoms_lit_append (l : Str) (rest : List Atom) (s : Str) :
    matchAtoms (Atom.lit l :: rest) (l ++ s) = matchAtoms rest s := by
  simp [matchAtoms, startsWith]

theorem replaceFrom_nil_lit (hd : Char) (l : Str) (rest : List Atom) (f : List Str → Str) :
    replaceFrom (Atom.lit (hd :: l) :: rest) f [] 0 = [] := by
  simp [replaceFrom, matchAtoms_lit_nil]

theorem replaceFrom_copy (hd : Char) (l : Str) (rest : List Atom) (f : List Str → Str)
    (a t : Str) (h : hd ∉ a) :
    replaceFrom (Atom.lit (hd :: l) :: rest) f (a ++ t) 0
      = a ++ replaceFrom (Atom.lit (hd :: l) :: rest) f t 0 := by
  induction a with
  | nil => rfl
  | cons c cs ih =>
    have hc : c ≠ hd := fun e => h (by simp [e])
    have hcs : hd ∉ cs := fun e => h (by simp [e])
    simp [replaceFrom, matchAtoms_lit_none hd l rest c _ hc, ih hcs]

theorem replaceFrom_skip (re : List Atom) (f : List Str → Str) (x t : Str) :
    replaceFrom re f (x ++ t) x.length = replaceFrom re f t 0 := by
  induction x with
  | nil => rfl
  | cons c cs ih => simpa [replaceFrom] using ih

theorem replaceFrom_match (re : List Atom) (f : List Str → Str) (c : Char) (m b : Str)
    (caps : List Str) (h : matchAtoms re (c :: (m ++ b)) = some (caps, b)) :
    replaceFrom re f (c :: (m ++ b)) 0 = f caps ++ replaceFrom re f b 0 := by
  have hlen : b.length < (c :: (m ++ b)).length := by simp; omega
  have hk : (c :: (m ++ b)).length - b.length - 1 = m.length := by simp; omega
  rw [replaceFrom, h]
  simp only [hlen, if_true, hk, replaceFrom_skip]

theorem lazyStar_any_append {β : Type} (k : Str → Option β) (s t : Str) (r : β)
    (hfail : ∀ c u, c ∈ s → k (c :: u) = none) (hk : k t = some r) :
    lazyStar anyUnit k (s ++ t) = some (s, r) := by
  induction s with
  | nil => cases t <;> simp [lazyStar, hk]
  | cons c cs ih =>
    have h1 : k (c :: (cs ++ t)) = none := hfail c _ (by simp)
    have h2 := ih (fun c u hc => hfail c u (by simp [hc]))
    simp [lazyStar, h1, anyUnit, h2]


theorem thinkRegex_eq : thinkRegex =
    [Atom.lit ('<' :: "think>".toList), Atom.starLazy anyUnit,
     Atom.lit ('<' :: "/think>".toList)] := rfl

theorem codeBlockRegex_eq : codeBlockRegex =
    Atom.lit (backtick :: [backtick, backtick]) :: codeBlockRegex.tail := rfl

theorem matchAtoms_think (s b : Str) (hs : '<' ∉ s) :
    matchAtoms thinkRegex ('<' :: ("think>".toList ++ s ++ "</think>".toList ++ b))
      = some ([s], b) := by
  have hk : matchAtoms [Atom.lit ('<' :: "/think>".toList)] ("</think>".toList ++ b)
      = some ([], b) := by
    have := matchAtoms_lit_append ('<' :: "/think>".toList) [] b
    simpa [matchAtoms] using this
  have hfail : ∀ c u, c ∈ s → matchAtoms [Atom.lit ('<' :: "/think>".toList)] (c :: u) = none := by
    intro c u hc
    exact matchAtoms_lit_none _ _ _ _ _ (fun e => hs (e ▸ hc))
  have hl := lazyStar_any_append _ s ("</think>".toList ++ b) ([], b) hfail hk
  have h1 := matchAtoms_lit_append ('<' :: "think>".toList)
    [Atom.starLazy anyUnit, Atom.lit ('<' :: "/think>".toList)] (s ++ ("</think>".toList ++ b))
  rw [thinkRegex_eq]
  simp only [List.cons_append, List.append_assoc] at h1 ⊢
  rw [h1, matchAtoms, hl]
  rfl

theorem replace_think_block (f : List Str → Str) (a s b : Str)
    (ha : '<' ∉ a) (hs : '<' ∉ s) (hb : '<' ∉ b) :
    replace thinkRegex f (a ++ "<think>".toList ++ s ++ "</think>".toList ++ b)
      = a ++ f [s] ++ b := by
  have hm := replaceFrom_match thinkRegex f '<' ("think>".toList ++ s ++ "</think>".toList) b [s]
    (by simpa [List.append_assoc] using matchAtoms_think s b hs)
  have hbb : replaceFrom thinkRegex f b 0 = b := by
    have := replaceFrom_copy '<' "think>".toList thinkRegex.tail f b [] hb
    rw [replaceFrom_nil_lit] at this
    simpa using this
  have hcopy := replaceFrom_copy '<' "think>".toList thinkRegex.tail f a
    ('<' :: ("think>".toList ++ s ++ "</think>".toList ++ b)) ha
  have e : a ++ "<think>".toList ++ s ++ "</think>".toList ++ b
      = a ++ '<' :: ("think>".toList ++ s ++ "</think>".toList ++ b) := by
    simp [List.append_assoc]
  rw [replace, e]
  rw [show thinkRegex = Atom.lit ('<' :: "think>".toList) :: thinkRegex.tail from rfl]
  rw [hcopy]
  rw [show Atom.lit ('<' :: "think>".toList) :: thinkRegex.tail = thinkRegex from rfl]
  rw [hm, hbb]
  simp [List.append_assoc]

theorem replace_codeBlock_id (f : List Str → Str) (t : Str) (h : backtick ∉ t) :
    replace codeBlockRegex f t = t := by
  have := replaceFrom_copy backtick [backtick, backtick] codeBlockRegex.tail f t [] h
  rw [replaceFrom_nil_lit] at this
  rw [replace, codeBlockRegex_eq]
  simpa using this


theorem mem_trim {c : Char} {s : Str} (h : c ∈ trim s) : c ∈ s := by
  unfold trim trimEnd trimStart at h
  rw [List.mem_reverse] at h
  have h1 := (List.dropWhile_suffix isWhiteSpace).subset h
  rw [List.mem_reverse] at h1
  exact (List.dropWhile_suffix isWhiteSpace).subset h1

theorem includes_cons (c : Char) (cs p : Str) :
    includes (c :: cs) p = (startsWith (c :: cs) p || includes cs p) := by
  unfold includes
  rw [indexOf]
  by_cases h : startsWith (c :: cs) p = true
  · simp [h]
  · simp [h]

theorem includes_nil_cons (c : Char) (p : Str) : includes [] (c :: p) = false := by
  simp [includes, indexOf]

theorem includes_skip (hd : Char) (p a t : Str) (h : hd ∉ a) :
    includes (a ++ t) (hd :: p) = includes t (hd :: p) := by
  induction a with
  | nil => rfl
  | cons c cs ih =>
    have hc : hd ≠ c := fun e => h (by simp [e])
    have hcs : hd ∉ cs := fun e => h (by simp [e])
    rw [List.cons_append, includes_cons, ih hcs]
    simp [startsWith, List.isPrefixOf, hc]

theorem foldOpen_eq : foldOpen =
    ['<', 'd', 'e', 't', 'a', 'i', 'l', 's', '>', '\n', '<', 's', 'u', 'm', 'm', 'a', 'r', 'y',
     '>', 'A', 's', 's', 'i', 's', 't', 'a', 'n', 't', '\x27', 's', ' ', 't', 'h', 'i', 'n', 'k',
     'i', 'n', 'g', ' ', 'p', 'r', 'o', 'c', 'e', 's', 's', '<', '/', 's', 'u', 'm', 'm', 'a',
     'r', 'y', '>', '\n', '\n'] := by decide

theorem foldClose_eq : foldClose = ['\n', '<', '/', 'd', 'e', 't', 'a', 'i', 'l', 's', '>'] := by
  decide

theorem includes_foldOpen (p t : Str) (hp : p = '<' :: "think>".toList ∨ p = '<' :: "/think>".toList) :
    includes (foldOpen ++ t) p = includes t p := by
  rw [foldOpen_eq]
  rcases hp with rfl | rfl <;>
    simp [includes_cons, startsWith, List.isPrefixOf]

theorem includes_foldClose (p t : Str) (hp : p = '<' :: "think>".toList ∨ p = '<' :: "/think>".toList) :
    includes (foldClose ++ t) p = includes t p := by
  rw [foldClose_eq]
  rcases hp with rfl | rfl <;>
    simp [includes_cons, startsWith, List.isPrefixOf]

theorem includes_iff_infix (s p : Str) : includes s p = true ↔ p <:+: s := by
  induction s with
  | nil =>
    cases p <;> simp [includes, indexOf]
  | cons c cs ih =>
    rw [includes_cons, Bool.or_eq_true, ih, List.infix_cons_iff, startsWith,
      List.isPrefixOf_iff_prefix]

theorem greedyStar_run {β : Type} (cls : Char → Bool) (k : Str → Option β) (x t : Str) (r : β)
    (hx : ∀ c ∈ x, cls c = true) (ht : ∀ c u, t = c :: u → cls c = false)
    (hk : k t = some r) : greedyStar cls k (x ++ t) = some (x, r) := by
  induction x with
  | nil =>
    cases t with
    | nil => simp [greedyStar, hk]
    | cons c u => simp [greedyStar, ht c u rfl, hk]
  | cons c cs ih =>
    have h1 : cls c = true := hx c (by simp)
    have h2 := ih (fun d hd => hx d (by simp [hd]))
    simp [greedyStar, h1, h2]

theorem matchAtoms_plusGreedy (cls : Char → Bool) (rest : List Atom) (x t : Str)
    (r : List Str × Str) (hne : x ≠ [])
    (hx : ∀ c ∈ x, cls c = true) (ht : ∀ c u, t = c :: u → cls c = false)
    (hk : matchAtoms rest t = some r) :
    matchAtoms (Atom.plusGreedy cls :: rest) (x ++ t) = some (x :: r.1, r.2) := by
  cases x with
  | nil => exact absurd rfl hne
  | cons c cs =>
    have h1 : cls c = true := hx c (by simp)
    have h2 := greedyStar_run cls (matchAtoms rest) cs t r
      (fun d hd => hx d (by simp [hd])) ht hk
    simp [matchAtoms, h1, h2]

theorem matchAtoms_single_lit (l x : Str) :
    matchAtoms [Atom.lit l] x = if startsWith x l = true then some ([], x.drop l.length) else none := by
  simp [matchAtoms]

theorem lazyStar_cons_some {β : Type} (cls : Char → Bool) (k : Str → Option β) (c : Char)
    (cs : Str) (r : β) (h : k (c :: cs) = some r) : lazyStar cls k (c :: cs) = some ([], r) := by
  simp [lazyStar, h]

theorem lazyStar_cons_none {β : Type} (k : Str → Option β) (c : Char)
    (cs : Str) (h : k (c :: cs) = none) :
    lazyStar anyUnit k (c :: cs) = (lazyStar anyUnit k cs).map (fun x => (c :: x.1, x.2)) := by
  simp [lazyStar, h, anyUnit]

theorem lazyStar_literal (l C : Str) (hl : l ≠ []) (h : ¬ l <:+: C) :
    ∃ pre post, lazyStar anyUnit (matchAtoms [Atom.lit l]) (C ++ l) = some (pre, ([], post))
      ∧ pre ++ l ++ post = C ++ l ∧ post.length < l.length := by
  induction C with
  | nil =>
    cases l with
    | nil => exact absurd rfl hl
    | cons d ds =>
      refine ⟨[], [], ?_, by simp, by simp⟩
      exact lazyStar_cons_some _ _ d ds _ (by rw [matchAtoms_single_lit]; simp [startsWith])
  | cons c cs ih =>
    rw [List.infix_cons_iff, not_or] at h
    by_cases hsw : startsWith (c :: (cs ++ l)) l = true
    · have hp : l <+: c :: (cs ++ l) := by
        simpa [startsWith] using hsw
      refine ⟨[], List.drop l.length (c :: (cs ++ l)), ?_, ?_, ?_⟩
      · exact lazyStar_cons_some _ _ c (cs ++ l) _ (by rw [matchAtoms_single_lit, if_pos hsw])
      · have := List.prefix_iff_eq_append.mp hp
        simpa using this
      · by_contra hlen
        have hle : l.length ≤ (c :: cs).length := by
          simp at hlen ⊢; omega
        exact h.1 (List.prefix_of_prefix_length_le hp (List.prefix_append (c :: cs) l) hle)
    · obtain ⟨pre, post, h1, h2, h3⟩ := ih h.2
      refine ⟨c :: pre, post, ?_, ?_, h3⟩
      · rw [List.cons_append, lazyStar_cons_none _ _ _ (by rw [matchAtoms_single_lit, if_neg hsw]), h1]
        rfl
      · simp only [List.cons_append, h2]

theorem matchAtoms_lit_short (l : Str) (rest : List Atom) (s : Str) (h : s.length < l.length) :
    matchAtoms (Atom.lit l :: rest) s = none := by
  have : startsWith s l = false := by
    rw [startsWith, Bool.eq_false_iff]
    intro hp
    have := (List.isPrefixOf_iff_prefix.mp hp).length_le
    omega
  simp [matchAtoms, this]

theorem replaceFrom_short (l : Str) (rest : List Atom) (f : List Str → Str) (s : Str)
    (h : s.length < l.length) : replaceFrom (Atom.lit l :: rest) f s 0 = s := by
  induction s with
  | nil => simp [replaceFrom, matchAtoms_lit_short l rest [] h]
  | cons c cs ih =>
    have h1 : cs.length < l.length := by simp at h; omega
    rw [replaceFrom, matchAtoms_lit_short l rest (c :: cs) h, ih h1]

theorem matchAtoms_codeBlock (L P C : Str) (hL : L ≠ []) (hLc : ∀ c ∈ L, isLangChar c = true)
    (hP : P ≠ []) (hPn : '\n' ∉ P) (hC : ¬ "```".toList <:+: C) :
    ∃ pre post, matchAtoms codeBlockRegex
        ("```".toList ++ (L ++ (":".toList ++ (P ++ ("\n".toList ++ (C ++ "```".toList))))))
        = some ([L, P, pre], post)
      ∧ pre ++ "```".toList ++ post = C ++ "```".toList ∧ post.length < 3 := by
  obtain ⟨pre, post, h1, h2, h3⟩ := lazyStar_literal "```".toList C (by decide) hC
  refine ⟨pre, post, ?_, h2, h3⟩
  have s1 : matchAtoms [Atom.starLazy anyUnit, Atom.lit "```".toList] (C ++ "```".toList)
      = some ([pre], post) := by
    rw [matchAtoms, h1]; rfl
  have s2 : matchAtoms [Atom.lit "\n".toList, Atom.starLazy anyUnit, Atom.lit "```".toList]
      ("\n".toList ++ (C ++ "```".toList)) = some ([pre], post) := by
    rw [matchAtoms_lit_append, s1]
  have s3 := matchAtoms_plusGreedy notNewline
    [Atom.lit "\n".toList, Atom.starLazy anyUnit, Atom.lit "```".toList] P
    ("\n".toList ++ (C ++ "```".toList)) _ hP
    (fun c hc => by
      have : c ≠ '\n' := fun e => hPn (e ▸ hc)
      simp [notNewline, this])
    (fun c u e => by
      have : c = '\n' := by
        have e' : '\n' :: (C ++ "```".toList) = c :: u := e
        exact (List.cons.inj e').1.symm
      subst this; decide)
    s2
  have s4 : matchAtoms [Atom.lit ":".toList, Atom.plusGreedy notNewline, Atom.lit "\n".toList,
      Atom.starLazy anyUnit, Atom.lit "```".toList]
      (":".toList ++ (P ++ ("\n".toList ++ (C ++ "```".toList)))) = some ([P, pre], post) := by
    rw [matchAtoms_lit_append, s3]
  have s5 := matchAtoms_plusGreedy isLangChar
    [Atom.lit ":".toList, Atom.plusGreedy notNewline, Atom.lit "\n".toList,
      Atom.starLazy anyUnit, Atom.lit "```".toList] L
    (":".toList ++ (P ++ ("\n".toList ++ (C ++ "```".toList)))) _ hL hLc
    (fun c u e => by
      have : c = ':' := by
        have e' : ':' :: (P ++ ("\n".toList ++ (C ++ "```".toList))) = c :: u := e
        exact (List.cons.inj e').1.symm
      subst this; decide)
    s4
  rw [codeBlockRegex, matchAtoms_lit_append, s5]

theorem greedyStar_result {β : Type} (cls : Char → Bool) (k : Str → Option β) (s cap : Str)
    (r : β) (h : greedyStar cls k s = some (cap, r)) : ∃ t, k t = some r := by
  induction s generalizing cap with
  | nil =>
    simp only [greedyStar, Option.map_eq_some'] at h
    obtain ⟨a, ha, he⟩ := h
    exact ⟨[], by rw [ha, (Prod.mk.inj he).2]⟩
  | cons c cs ih =>
    rw [greedyStar] at h
    split at h
    · split at h
      · next cap' r' heq =>
        have e := Prod.mk.inj (Option.some.inj h)
        exact ih cap' (by rw [heq, e.2])
      · simp only [Option.map_eq_some'] at h
        obtain ⟨a, ha, he⟩ := h
        exact ⟨c :: cs, by rw [ha, (Prod.mk.inj he).2]⟩
    · simp only [Option.map_eq_some'] at h
      obtain ⟨a, ha, he⟩ := h
      exact ⟨c :: cs, by rw [ha, (Prod.mk.inj he).2]⟩

theorem lazyStar_result {β : Type} (cls : Char → Bool) (k : Str → Option β) (s cap : Str)
    (r : β) (h : lazyStar cls k s = some (cap, r)) : ∃ t, k t = some r := by
  induction s generalizing cap with
  | nil =>
    simp only [lazyStar, Option.map_eq_some'] at h
    obtain ⟨a, ha, he⟩ := h
    exact ⟨[], by rw [ha, (Prod.mk.inj he).2]⟩
  | cons c cs ih =>
    rw [lazyStar] at h
    split at h
    · next r' heq =>
      have e := Prod.mk.inj (Option.some.inj h)
      exact ⟨c :: cs, by rw [heq, e.2]⟩
    · split at h
      · simp only [Option.map_eq_some'] at h
        obtain ⟨a, ha, he⟩ := h
        have e := Prod.mk.inj he
        exact ih a.1 (by rw [ha, ← e.2])
      · exact absurd h (by simp)

theorem matchAtoms_capCount (re : List Atom) (s : Str) (caps : List Str) (rest : Str)
    (h : matchAtoms re s = some (caps, rest)) : caps.length = capCount re := by
  induction re generalizing s caps rest with
  | nil =>
    simp only [matchAtoms, Option.some.injEq, Prod.mk.injEq] at h
    simp [capCount, ← h.1]
  | cons a re ih =>
    cases a with
    | lit l =>
      rw [matchAtoms] at h
      split at h
      · exact ih _ _ _ h
      · exact absurd h (by simp)
    | plusGreedy cls =>
      cases s with
      | nil => simp [matchAtoms] at h
      | cons c cs =>
        rw [matchAtoms] at h
        split at h
        · simp only [Option.map_eq_some'] at h
          obtain ⟨x, hx, he⟩ := h
          obtain ⟨t, ht⟩ := greedyStar_result cls (matchAtoms re) cs x.1 x.2 hx
          have := ih t x.2.1 x.2.2 ht
          have e := Prod.mk.inj he
          simp [capCount, ← e.1, this]
        · exact absurd h (by simp)
    | starLazy cls =>
      rw [matchAtoms] at h
      simp only [Option.map_eq_some'] at h
      obtain ⟨x, hx, he⟩ := h
      obtain ⟨t, ht⟩ := lazyStar_result cls (matchAtoms re) s x.1 x.2 hx
      have := ih t x.2.1 x.2.2 ht
      have e := Prod.mk.inj he
      simp [capCount, ← e.1, this]

theorem codeBlockReplacer_head (s : Str) (caps : List Str) (rest : Str)
    (h : matchAtoms codeBlockRegex s = some (caps, rest)) :
    ∃ tl, codeBlockReplacer caps = '*' :: tl := by
  have hl := matchAtoms_capCount _ _ _ _ h
  have h3 : caps.length = 3 := hl
  match caps, h3 with
  | [l, p, c], _ => exact ⟨_, rfl⟩

theorem replace_codeBlock_eq_self_iff (t : Str) :
    replaceFrom codeBlockRegex codeBlockReplacer t 0 = t
      ↔ ∀ u, u <:+ t → matchAtoms codeBlockRegex u = none := by
  induction t with
  | nil =>
    have h0 : matchAtoms codeBlockRegex [] = none := by decide
    constructor
    · intro _ u hu
      rw [List.suffix_nil.mp hu, h0]
    · intro _
      rw [replaceFrom, h0]
  | cons c cs ih =>
    cases hm : matchAtoms codeBlockRegex (c :: cs) with
    | none =>
      rw [replaceFrom, hm]
      constructor
      · intro h u hu
        rcases List.suffix_cons_iff.mp hu with rfl | hu'
        · exact hm
        · exact ih.mp (List.cons.inj h).2 u hu'
      · intro h
        rw [ih.mpr (fun u hu => h u (hu.trans (List.suffix_cons c cs)))]
    | some r =>
      obtain ⟨caps, rest⟩ := r
      obtain ⟨tl, htl⟩ := codeBlockReplacer_head _ _ _ hm
      have hc : c = backtick := by
        by_contra hne
        rw [codeBlockRegex_eq, matchAtoms_lit_none _ _ _ _ _ hne] at hm
        exact absurd hm (by simp)
      constructor
      · intro h
        exfalso
        rw [replaceFrom, hm] at h
        simp only [htl] at h
        split at h
        · have := (List.cons.inj h).1
          rw [hc] at this
          exact absurd this (by decide)
        · have := (List.cons.inj h).1
          rw [hc] at this
          exact absurd this (by decide)
      · intro h
        have := h (c :: cs) List.suffix_rfl
        rw [hm] at this
        exact absurd this (by simp)

/-! ## Lemmas on the selection loop -/

theorem chatIndexOf_range (chatsData : List Chat) (chat : Chat) (h : chat ∈ chatsData) :
    0 ≤ chatIndexOf chatsData chat ∧ chatIndexOf chatsData chat < (chatsData.length : Int) := by
  induction chatsData with
  | nil => simp at h
  | cons c cs ih =>
    by_cases hc : c.ref = chat.ref
    · simp only [chatIndexOf, hc, if_true, List.length_cons]
      constructor <;> omega
    · have hmem : chat ∈ cs := by
        rcases List.mem_cons.mp h with rfl | h'
        · exact absurd rfl hc
        · exact h'
      obtain ⟨h0, h1⟩ := ih hmem
      have hne : chatIndexOf cs chat ≠ -1 := by omega
      simp only [chatIndexOf, hc, if_false, hne, List.length_cons]
      constructor
      · omega
      · push_cast; omega

theorem validNums_range (chatsData : List Chat) (command : Str) :
    ∀ i ∈ validNums chatsData command, 0 ≤ i ∧ i < (chatsData.length : Int) := by
  intro i hi
  simp only [validNums, List.mem_filterMap] at hi
  obtain ⟨num, _, hnum⟩ := hi
  cases num with
  | none => simp at hnum
  | some v =>
    simp only at hnum
    split at hnum
    · next hv =>
      have : v = i := Option.some.inj hnum
      subst this
      exact ⟨hv.1, hv.2⟩
    · simp at hnum

theorem filterThrowing_subset (p : Chat → Option Bool) (l r : List Chat)
    (h : filterThrowing p l = some r) : ∀ c ∈ r, c ∈ l := by
  induction l generalizing r with
  | nil =>
    simp only [filterThrowing, Option.some.injEq] at h
    subst h; simp
  | cons a as ih =>
    rw [filterThrowing] at h
    split at h
    · simp at h
    · split at h
      · simp at h
      · next keepIt _ r' hr' =>
        have := Option.some.inj h
        subst this
        intro c hc
        split at hc
        · rcases List.mem_cons.mp hc with rfl | hc'
          · simp
          · exact List.mem_cons_of_mem _ (ih r' hr' c hc')
        · exact List.mem_cons_of_mem _ (ih r' hr' c hc)

theorem inv_initial (chatsData : List Chat) : Inv chatsData (initialConfig chatsData) := by
  constructor
  · intro c hc; exact hc
  · intro sel h; simp [initialConfig] at h

theorem onCommand_cases (chatsData : List Chat) (st : State) (command : Str)
    (P : Config → Prop)
    (hstay : P { ctl := Ctl.command, st := st })
    (hnext : P { ctl := Ctl.command, st := { st with currentPage := st.currentPage + 1 } })
    (hprev : P { ctl := Ctl.command, st := { st with currentPage := st.currentPage - 1 } })
    (hj : P { ctl := Ctl.pageNumber, st := st })
    (hf : P { ctl := Ctl.keyword, st := st })
    (hd : P { ctl := Ctl.date, st := st })
    (he : P { ctl := Ctl.command,
              st := { st with showEmptyChats := !st.showEmptyChats, currentPage := 1 } })
    (hr : P { ctl := Ctl.command,
              st := { st with filteredChats := chatsData, filterKeyword := [], dateFilter := [],
                              currentPage := 1 } })
    (hs : P { ctl := Ctl.searchTerm, st := st })
    (hall : P { ctl := Ctl.done (st.filteredChats.map (chatIndexOf chatsData)), st := st })
    (hq : P { ctl := Ctl.done [], st := st })
    (hsel : P { ctl := Ctl.done (validNums chatsData command), st := st })
    (hbad : P { ctl := Ctl.pressEnter Notice.invalidSelection, st := st }) :
    P (onCommand chatsData st command) := by
  unfold onCommand
  by_cases h1 : command = "n".toList
  · rw [if_pos h1]
    by_cases h : st.currentPage < ceilDiv st.filteredChats.length PAGE_SIZE
    · rw [if_pos h]; exact hnext
    · rw [if_neg h]; exact hstay
  rw [if_neg h1]
  by_cases h2 : command = "p".toList
  · rw [if_pos h2]
    by_cases h : st.currentPage > 1
    · rw [if_pos h]; exact hprev
    · rw [if_neg h]; exact hstay
  rw [if_neg h2]
  by_cases h3 : command = "j".toList
  · rw [if_pos h3]; exact hj
  rw [if_neg h3]
  by_cases h4 : command = "f".toList
  · rw [if_pos h4]; exact hf
  rw [if_neg h4]
  by_cases h5 : command = "d".toList
  · rw [if_pos h5]; exact hd
  rw [if_neg h5]
  by_cases h6 : command = "e".toList
  · rw [if_pos h6]; exact he
  rw [if_neg h6]
  by_cases h7 : command = "r".toList
  · rw [if_pos h7]; exact hr
  rw [if_neg h7]
  by_cases h8 : command = "s".toList
  · rw [if_pos h8]; exact hs
  rw [if_neg h8]
  by_cases h9 : command = "all".toList
  · rw [if_pos h9]; exact hall
  rw [if_neg h9]
  by_cases h10 : command = "q".toList
  · rw [if_pos h10]; exact hq
  rw [if_neg h10]
  by_cases h : (validNums chatsData command).length > 0
  · simp only [h, if_true]; exact hsel
  · simp only [h, if_false]; exact hbad

theorem inv_onCommand (chatsData : List Chat) (st : State) (command : Str)
    (h : ∀ c ∈ st.filteredChats, c ∈ chatsData) :
    Inv chatsData (onCommand chatsData st command) := by
  have hno : ∀ st' : State, (∀ c ∈ st'.filteredChats, c ∈ chatsData) →
      ∀ ctl : Ctl, (∀ sel, ctl ≠ Ctl.done sel) → Inv chatsData { ctl := ctl, st := st' } :=
    fun st' hv ctl hc => ⟨hv, fun sel hsel => absurd hsel (hc sel)⟩
  have hdone : ∀ sel, (∀ i ∈ sel, 0 ≤ i ∧ i < (chatsData.length : Int)) →
      Inv chatsData { ctl := Ctl.done sel, st := st } :=
    fun sel hr => ⟨h, fun sel' hsel i hi => by
      have : sel = sel' := by simpa using hsel
      subst this; exact hr i hi⟩
  apply onCommand_cases
  · exact hno _ h _ (by simp)
  · exact hno _ h _ (by simp)
  · exact hno _ h _ (by simp)
  · exact hno _ h _ (by simp)
  · exact hno _ h _ (by simp)
  · exact hno _ h _ (by simp)
  · exact hno _ h _ (by simp)
  · exact hno _ (fun c hc => hc) _ (by simp)
  · exact hno _ h _ (by simp)
  · refine hdone _ (fun i hi => ?_)
    obtain ⟨c, hc, rfl⟩ := List.mem_map.mp hi
    exact chatIndexOf_range chatsData c (h c hc)
  · exact hdone _ (fun i hi => by simp at hi)
  · exact hdone _ (validNums_range chatsData command)
  · exact hno _ h _ (by simp)

theorem inv_step (rt : Runtime) (chatsData : List Chat) (cfg : Config) (line : Str)
    (h : Inv chatsData cfg) : Inv chatsData (step rt chatsData cfg line) := by
  obtain ⟨ctl, st⟩ := cfg
  obtain ⟨hv, hs⟩ := h
  cases ctl with
  | command => exact inv_onCommand chatsData st _ hv
  | pageNumber =>
    simp only [step, onPageNumber]
    repeat' split
    all_goals exact ⟨hv, fun sel hsel => absurd hsel (by simp)⟩
  | keyword =>
    simp only [step, applyKeywordFilter]
    split
    · exact ⟨hv, fun sel hsel => absurd hsel (by simp)⟩
    · exact ⟨fun c hc => (List.mem_filter.mp hc).1, fun sel hsel => absurd hsel (by simp)⟩
  | date =>
    simp only [step]
    split
    · next st' heq =>
      refine ⟨?_, fun sel hsel => absurd hsel (by simp)⟩
      simp only [applyDateFilter] at heq
      split at heq
      · simp only [DateOutcome.applied.injEq] at heq
        subst heq; exact hv
      · split at heq
        · split at heq
          · next kept hk =>
            simp only [DateOutcome.applied.injEq] at heq
            subst heq
            exact filterThrowing_subset _ _ _ hk
          · simp at heq
        · simp at heq
    · next st' heq =>
      refine ⟨?_, fun sel hsel => absurd hsel (by simp)⟩
      simp only [applyDateFilter] at heq
      split at heq
      · simp at heq
      · split at heq
        · split at heq <;> simp at heq
        · simp only [DateOutcome.invalid.injEq] at heq
          subst heq; exact hv
    · next st' heq =>
      refine ⟨?_, fun sel hsel => absurd hsel (by simp)⟩
      simp only [applyDateFilter] at heq
      split at heq
      · simp at heq
      · split at heq
        · split at heq
          · simp at heq
          · simp only [DateOutcome.threw.injEq] at heq
            subst heq; exact hv
        · simp at heq
  | searchTerm =>
    simp only [step]
    split <;> exact ⟨hv, fun sel hsel => absurd hsel (by simp)⟩
  | pressEnter _ => exact ⟨hv, fun sel hsel => absurd hsel (by simp [step])⟩
  | done sel0 => exact ⟨hv, fun sel hsel => hs sel (by simpa [step] using hsel)⟩
  | threw => exact ⟨hv, fun sel hsel => absurd hsel (by simp [step])⟩

theorem inv_foldl (rt : Runtime) (chatsData : List Chat) (lines : List Str) (cfg : Config)
    (h : Inv chatsData cfg) : Inv chatsData (lines.foldl (step rt chatsData) cfg) := by
  induction lines generalizing cfg with
  | nil => exact h
  | cons l ls ih => exact ih _ (inv_step rt chatsData cfg l h)

/-! ## Lemmas on numerals and `parseInt` -/

theorem digitChar_props (c : Char) (h : ∃ k, k < 10 ∧ c = Nat.digitChar k) :
    (∃ k, k < 10 ∧ digitValue 10 c = some k) ∧ isWhiteSpace c = false ∧ c ≠ '-' ∧ c ≠ '+'
      ∧ c ≠ ',' ∧ c ≠ 'x' ∧ c ≠ 'X' ∧ c.toNat < 128 ∧ Char.toLower c = c
      ∧ isNumChar c = true := by
  obtain ⟨k, hk, rfl⟩ := h
  interval_cases k <;> decide

theorem digitValue_digitChar (k : Nat) (h : k < 10) : digitValue 10 (Nat.digitChar k) = some k := by
  interval_cases k <;> decide

theorem toDigitsCore_spec (fuel n : Nat) (ds : Str) (h : n < fuel) :
    ∃ pre, Nat.toDigitsCore 10 fuel n ds = pre ++ ds ∧ pre ≠ []
      ∧ (∀ c ∈ pre, ∃ k, k < 10 ∧ c = Nat.digitChar k) ∧ decimalValue pre = n := by
  induction fuel generalizing n ds with
  | zero => omega
  | succ fuel ih =>
    have hlt : n % 10 < 10 := Nat.mod_lt _ (by decide)
    have hd := digitValue_digitChar (n % 10) hlt
    rw [Nat.toDigitsCore]
    by_cases h0 : n / 10 = 0
    · simp only [h0, if_true]
      refine ⟨[Nat.digitChar (n % 10)], rfl, by simp, ?_, ?_⟩
      · intro c hc
        exact ⟨n % 10, hlt, List.mem_singleton.mp hc⟩
      · simp only [decimalValue, List.foldl_cons, List.foldl_nil]
        rw [hd, Option.getD_some]
        omega
    · simp only [h0, if_false]
      obtain ⟨pre, h1, _, h3, h4⟩ := ih (n / 10) (Nat.digitChar (n % 10) :: ds) (by omega)
      refine ⟨pre ++ [Nat.digitChar (n % 10)], by simp [h1], by simp, ?_, ?_⟩
      · intro c hc
        rcases List.mem_append.mp hc with hc | hc
        · exact h3 c hc
        · exact ⟨n % 10, hlt, List.mem_singleton.mp hc⟩
      · have h4' : List.foldl (fun acc c => acc * 10 + (digitValue 10 c).getD 0) 0 pre = n / 10 := h4
        simp only [decimalValue, List.foldl_append, List.foldl_cons, List.foldl_nil]
        rw [h4', hd, Option.getD_some]
        omega

theorem toDigits_spec (n : Nat) :
    Nat.toDigits 10 n ≠ [] ∧ (∀ c ∈ Nat.toDigits 10 n, ∃ k, k < 10 ∧ c = Nat.digitChar k)
      ∧ decimalValue (Nat.toDigits 10 n) = n := by
  obtain ⟨pre, h1, h2, h3, h4⟩ := toDigitsCore_spec (n + 1) n [] (by omega)
  rw [Nat.toDigits, h1, List.append_nil]
  exact ⟨h2, h3, h4⟩

theorem takeWhile_all {α : Type} (p : α → Bool) (l : List α) (h : ∀ a ∈ l, p a = true) :
    l.takeWhile p = l := by
  induction l with
  | nil => rfl
  | cons a as ih =>
    simp [List.takeWhile, h a (by simp), ih (fun b hb => h b (by simp [hb]))]

theorem stripSign_digits (ds : Str) (hd : ∀ c ∈ ds, ∃ k, k < 10 ∧ c = Nat.digitChar k) :
    stripSign ds = (1, ds) := by
  unfold stripSign
  split
  · next r => exact absurd rfl (digitChar_props '-' (hd '-' (by simp))).2.2.1
  · next r => exact absurd rfl (digitChar_props '+' (hd '+' (by simp))).2.2.2.1
  · rfl

theorem stripRadix_digits (ds : Str) (hd : ∀ c ∈ ds, ∃ k, k < 10 ∧ c = Nat.digitChar k) :
    stripRadix ds = (10, ds) := by
  unfold stripRadix
  split
  · next r => exact absurd rfl (digitChar_props 'x' (hd 'x' (by simp))).2.2.2.2.2.1
  · next r => exact absurd rfl (digitChar_props 'X' (hd 'X' (by simp))).2.2.2.2.2.2.1
  · rfl

theorem trimStart_digits (ds : Str) (hd : ∀ c ∈ ds, ∃ k, k < 10 ∧ c = Nat.digitChar k) :
    trimStart ds = ds := by
  cases ds with
  | nil => rfl
  | cons c cs => simp [trimStart, List.dropWhile, (digitChar_props c (hd c (by simp))).2.1]

theorem readDigits (ds : Str) (hne : ds ≠ [])
    (hd : ∀ c ∈ ds, ∃ k, k < 10 ∧ c = Nat.digitChar k) (sign : Int) :
    (if (ds.takeWhile (fun c => (digitValue 10 c).isSome)).isEmpty then none
      else some (sign * ((List.foldl (fun acc c => acc * 10 + (digitValue 10 c).getD 0) 0
        (ds.takeWhile (fun c => (digitValue 10 c).isSome)) : Nat) : Int)))
      = some (sign * (decimalValue ds : Int)) := by
  have htw : ds.takeWhile (fun c => (digitValue 10 c).isSome) = ds :=
    takeWhile_all _ _ (fun a ha => by
      obtain ⟨⟨k, _, hk⟩, _⟩ := digitChar_props a (hd a ha)
      simp [hk])
  rw [htw]
  cases ds with
  | nil => exact absurd rfl hne
  | cons c cs => rfl

/-- `parseInt` on a non-empty run of decimal digits. -/
theorem parseInt_digits (ds : Str) (hne : ds ≠ [])
    (hd : ∀ c ∈ ds, ∃ k, k < 10 ∧ c = Nat.digitChar k) :
    parseInt ds = some ((decimalValue ds : Nat) : Int) := by
  unfold parseInt
  simp only [trimStart_digits ds hd, stripSign_digits ds hd, stripRadix_digits ds hd]
  rw [readDigits ds hne hd 1, one_mul]

/-- `parseInt` on a minus sign followed by a non-empty run of decimal digits. -/
theorem parseInt_neg_digits (ds : Str) (hne : ds ≠ [])
    (hd : ∀ c ∈ ds, ∃ k, k < 10 ∧ c = Nat.digitChar k) :
    parseInt ('-' :: ds) = some (-(decimalValue ds : Int)) := by
  unfold parseInt
  have h1 : trimStart ('-' :: ds) = '-' :: ds := by
    simp [trimStart, List.dropWhile, show isWhiteSpace '-' = false by decide]
  have h2 : stripSign ('-' :: ds) = (-1, ds) := rfl
  simp only [h1, h2, stripRadix_digits ds hd]
  rw [readDigits ds hne hd (-1)]
  simp

theorem parseInt_decimal (n : Int) : parseInt (decimal n) = some n := by
  cases n with
  | ofNat m =>
    obtain ⟨h1, h2, h3⟩ := toDigits_spec m
    rw [decimal, parseInt_digits _ h1 h2, h3]
    rfl
  | negSucc m =>
    obtain ⟨h1, h2, h3⟩ := toDigits_spec (m + 1)
    rw [decimal, parseInt_neg_digits _ h1 h2, h3]
    rfl

theorem decimal_chars (n : Int) : ∀ c ∈ decimal n, isNumChar c = true ∧ c ≠ ',' ∧
    isWhiteSpace c = false ∧ c.toNat < 128 ∧ Char.toLower c = c := by
  have hdig : ∀ m : Nat, ∀ c ∈ Nat.toDigits 10 m, isNumChar c = true ∧ c ≠ ',' ∧
      isWhiteSpace c = false ∧ c.toNat < 128 ∧ Char.toLower c = c := by
    intro m c hc
    have := digitChar_props c ((toDigits_spec m).2.1 c hc)
    exact ⟨this.2.2.2.2.2.2.2.2.2, this.2.2.2.2.1, this.2.1, this.2.2.2.2.2.2.2.1,
      this.2.2.2.2.2.2.2.2.1⟩
  intro c hc
  cases n with
  | ofNat m => exact hdig m c hc
  | negSucc m =>
    rcases List.mem_cons.mp hc with rfl | hc'
    · decide
    · exact hdig (m + 1) c hc'

theorem decimal_ne_nil (n : Int) : decimal n ≠ [] := by
  cases n with
  | ofNat m => exact (toDigits_spec m).1
  | negSucc m => simp [decimal]

theorem split_no_sep (sep : Char) (t : Str) (h : sep ∉ t) : split sep t = [t] := by
  induction t with
  | nil => rfl
  | cons c cs ih =>
    have hc : c ≠ sep := fun e => h (by simp [e])
    have hcs : sep ∉ cs := fun e => h (by simp [e])
    simp [split, hc, ih hcs]

theorem split_ne_nil (sep : Char) (s : Str) : split sep s ≠ [] := by
  induction s with
  | nil => simp [split]
  | cons c cs ih =>
    rw [split]
    split
    · simp
    · split <;> simp

theorem split_append_sep (sep : Char) (t rest : Str) (h : sep ∉ t) :
    split sep (t ++ sep :: rest) = t :: split sep rest := by
  induction t with
  | nil => simp [split]
  | cons c cs ih =>
    have hc : c ≠ sep := fun e => h (by simp [e])
    have hcs : sep ∉ cs := fun e => h (by simp [e])
    rw [List.cons_append, split, if_neg hc, ih hcs]

theorem intercalate_cons_cons (t t' : Str) (ts : List Str) :
    [','].intercalate (t :: t' :: ts) = t ++ ',' :: [','].intercalate (t' :: ts) := by
  simp [List.intercalate, List.intersperse]

theorem split_intercalate (ts : List Str) (hne : ts ≠ []) (h : ∀ t ∈ ts, ',' ∉ t) :
    split ',' ([','].intercalate ts) = ts := by
  induction ts with
  | nil => exact absurd rfl hne
  | cons t rest ih =>
    cases rest with
    | nil =>
      have : [','].intercalate [t] = t := by simp [List.intercalate, List.intersperse]
      rw [this, split_no_sep _ _ (h t (by simp))]
    | cons t' ts =>
      rw [intercalate_cons_cons, split_append_sep _ _ _ (h t (by simp)),
        ih (by simp) (fun u hu => h u (by simp [hu]))]

theorem intercalate_chars (Q : Char → Prop) (hq : Q ',') (ts : List Str)
    (h : ∀ t ∈ ts, ∀ c ∈ t, Q c) : ∀ c ∈ [','].intercalate ts, Q c := by
  induction ts with
  | nil => intro c hc; simp [List.intercalate, List.intersperse] at hc
  | cons t rest ih =>
    cases rest with
    | nil =>
      have : [','].intercalate [t] = t := by simp [List.intercalate, List.intersperse]
      rw [this]; exact h t (by simp)
    | cons t' ts =>
      rw [intercalate_cons_cons]
      intro c hc
      rcases List.mem_append.mp hc with hc | hc
      · exact h t (by simp) c hc
      · rcases List.mem_cons.mp hc with rfl | hc
        · exact hq
        · exact ih (fun u hu => h u (by simp [hu])) c hc

theorem trim_of_no_whiteSpace (s : Str) (h : ∀ c ∈ s, isWhiteSpace c = false) : trim s = s := by
  have hdw : ∀ l : Str, (∀ c ∈ l, isWhiteSpace c = false) → l.dropWhile isWhiteSpace = l := by
    intro l hl
    cases l with
    | nil => rfl
    | cons c cs => simp [List.dropWhile, hl c (by simp)]
  unfold trim trimEnd trimStart
  rw [hdw s h, hdw s.reverse (fun c hc => h c (List.mem_reverse.mp hc)), List.reverse_reverse]

theorem commaList_chars (ns : List Int) : ∀ c ∈ commaList ns, isNumChar c = true ∧
    isWhiteSpace c = false ∧ c.toNat < 128 ∧ Char.toLower c = c := by
  apply intercalate_chars (fun c => isNumChar c = true ∧
    isWhiteSpace c = false ∧ c.toNat < 128 ∧ Char.toLower c = c) (by decide)
  intro t ht c hc
  obtain ⟨n, _, rfl⟩ := List.mem_map.mp ht
  have := decimal_chars n c hc
  exact ⟨this.1, this.2.2.1, this.2.2.2.1, this.2.2.2.2⟩

theorem command_of_commaList (rt : Runtime) (ns : List Int) :
    trim (rt.toLowerCase (commaList ns)) = commaList ns := by
  have h := commaList_chars ns
  rw [rt.toLowerCase_ascii _ (fun c hc => (h c hc).2.2.1)]
  have : (commaList ns).map Char.toLower = commaList ns := by
    conv_rhs => rw [← List.map_id (commaList ns)]
    exact List.map_congr_left (fun c hc => (h c hc).2.2.2)
  rw [this, trim_of_no_whiteSpace _ (fun c hc => (h c hc).2.1)]

theorem validNums_commaList (chatsData : List Chat) (ns : List Int) :
    validNums chatsData (commaList ns)
      = (ns.map (fun n => n - 1)).filter
          (fun v => decide (0 ≤ v ∧ v < (chatsData.length : Int))) := by
  cases ns with
  | nil => rfl
  | cons n rest =>
    have hs : split ',' (commaList (n :: rest)) = (n :: rest).map decimal :=
      split_intercalate _ (by simp) (fun t ht => by
        obtain ⟨m, _, rfl⟩ := List.mem_map.mp ht
        exact fun hc => (decimal_chars m ',' hc).2.1 rfl)
    unfold validNums
    rw [hs]
    generalize n :: rest = l
    induction l with
    | nil => rfl
    | cons m ms ih =>
      have hm : parseInt (trim (decimal m)) = some m := by
        rw [trim_of_no_whiteSpace _ (fun c hc => (decimal_chars m c hc).2.2.1), parseInt_decimal]
      simp only [List.map_cons, List.filterMap_cons, hm, Option.map_some', List.filter_cons]
        at ih ⊢
      by_cases hv : 0 ≤ m - 1 ∧ m - 1 < (chatsData.length : Int)
      · simp only [ge_iff_le, hv, and_self, if_true, decide_True]
        rw [ih]
      · simp only [ge_iff_le, hv, if_false, decide_False]
        rw [ih]
        rfl

/-! ## Lemmas on the filters -/

theorem toLowerCase_nil (rt : Runtime) : rt.toLowerCase [] = [] := by
  rw [rt.toLowerCase_ascii [] (fun c hc => by simp at hc)]
  rfl

theorem messageMatch_iff (rt : Runtime) (s : Str) (hs : s ≠ []) (m : Option Message) :
    (match truthyText m with
      | some t => includes (rt.toLowerCase t) (rt.toLowerCase s)
      | none => false) = true
      ↔ ∃ text, messageText m = some text ∧ rt.toLowerCase s <:+: rt.toLowerCase text := by
  have hempty : ¬ rt.toLowerCase s <:+: rt.toLowerCase [] := by
    rw [toLowerCase_nil, List.infix_nil]
    exact rt.toLowerCase_ne_nil s hs
  cases m with
  | none => simp [truthyText, messageText]
  | some msg =>
    cases ht : msg.text with
    | none => simp [truthyText, messageText, ht]
    | some t =>
      by_cases he : t = []
      · subst he
        simp [truthyText, messageText, ht, hempty]
      · have : t.isEmpty = false := by cases t <;> simp at he ⊢
        simp [truthyText, messageText, ht, this, includes_iff_infix]

theorem keywordMatches_iff (rt : Runtime) (s : Str) (hs : s ≠ []) (chat : Chat) :
    keywordMatches rt s chat = true ↔ MatchesKeyword rt s chat := by
  unfold keywordMatches MatchesKeyword
  cases hi : chat.interactions with
  | none => simp
  | some l =>
    simp only [Option.getD_some]
    have key : ∀ i : Interaction,
        (∃ text ∈ [messageText i.humanMessage, messageText i.assistantMessage].filterMap id,
          rt.toLowerCase s <:+: rt.toLowerCase text)
        ↔ ((match truthyText i.humanMessage with
            | some t => includes (rt.toLowerCase t) (rt.toLowerCase s)
            | none => false) = true
          ∨ (match truthyText i.assistantMessage with
            | some t => includes (rt.toLowerCase t) (rt.toLowerCase s)
            | none => false) = true) := by
      intro i
      rw [messageMatch_iff rt s hs, messageMatch_iff rt s hs]
      simp only [List.mem_filterMap, List.mem_cons, List.mem_singleton, id]
      constructor
      · rintro ⟨text, ⟨a, ha | ha | ha, rfl⟩, h⟩
        · exact Or.inl ⟨text, ha.symm, h⟩
        · exact Or.inr ⟨text, ha.symm, h⟩
        · simp at ha
      · rintro (⟨text, ha, h⟩ | ⟨text, ha, h⟩)
        · exact ⟨text, ⟨_, Or.inl ha.symm, rfl⟩, h⟩
        · exact ⟨text, ⟨_, Or.inr (Or.inl ha.symm), rfl⟩, h⟩
    simp only [key]
    by_cases hl : l.length > 0
    · simp only [hl, if_true]
      constructor
      · intro h
        split_ifs at h with h1 h2
        · obtain ⟨i, hi1, hi2⟩ := List.any_eq_true.mp h1
          exact ⟨i, hi1, Or.inl hi2⟩
        · obtain ⟨i, hi1, hi2⟩ := List.any_eq_true.mp h2
          exact ⟨i, hi1, Or.inr hi2⟩
      · rintro ⟨i, hi1, hi2 | hi2⟩
        · rw [if_pos (List.any_eq_true.mpr ⟨i, hi1, hi2⟩)]
        · split_ifs with h1 h2
          · rfl
          · rfl
          · exact absurd (List.any_eq_true.mpr ⟨i, hi1, hi2⟩) h2
    · have : l = [] := by
        cases l with
        | nil => rfl
        | cons a as => simp at hl
      subst this
      simp

/-! ## Lemmas on the page display -/

theorem range_filterMap_getElem {α : Type} (l : List α) (s n : Nat) :
    (List.range' s n).filterMap (fun i => l[i]?) = (l.drop s).take n := by
  induction n generalizing s with
  | zero => simp
  | succ n ih =>
    rw [List.range'_succ, List.filterMap_cons]
    by_cases h : s < l.length
    · rw [List.getElem?_eq_getElem h, ih (s + 1), List.drop_eq_getElem_cons h, List.take_succ_cons]
    · have hle : l.length ≤ s := Nat.le_of_not_lt h
      rw [List.getElem?_eq_none hle, ih (s + 1), List.drop_eq_nil_of_le hle,
        List.drop_eq_nil_of_le (by omega)]
      simp

theorem pageChats_eq (st : State) :
    pageChats st = ((displayedChats st).drop (startIdx st)).take PAGE_SIZE := by
  unfold pageChats endIdx
  rw [range_filterMap_getElem]
  apply List.ext_getElem?
  intro i
  simp only [List.getElem?_take, List.getElem?_drop]
  by_cases h1 : i < PAGE_SIZE
  · by_cases h2 : startIdx st + i < (displayedChats st).length
    · have : i < min (startIdx st + PAGE_SIZE) (displayedChats st).length - startIdx st := by
        omega
      simp [h1, this]
    · have hn : (displayedChats st)[startIdx st + i]? = none :=
        List.getElem?_eq_none (by omega)
      simp [hn]
  · have : ¬ i < min (startIdx st + PAGE_SIZE) (displayedChats st).length - startIdx st := by
      omega
    simp [h1, this]

theorem chunks_flatten {α : Type} (m : Nat) (l : List α) (h : l.length ≤ 10 * m) :
    ((List.range m).map (fun k => (l.drop (k * 10)).take 10)).flatten = l := by
  induction m generalizing l with
  | zero =>
    have : l = [] := List.eq_nil_of_length_eq_zero (by omega)
    simp [this]
  | succ m ih =>
    rw [List.range_succ_eq_map, List.map_cons, List.flatten_cons, List.map_map]
    have hrest : (List.range m).map ((fun k => (l.drop (k * 10)).take 10) ∘ Nat.succ)
        = (List.range m).map (fun k => ((l.drop 10).drop (k * 10)).take 10) := by
      apply List.map_congr_left
      intro k _
      simp only [Function.comp, List.drop_drop]
      congr 2
      omega
    rw [hrest, ih (l.drop 10) (by simp; omega)]
    simp

theorem ceilDiv_bounds (n : Nat) : n ≤ 10 * ceilDiv n 10 ∧ 10 * ceilDiv n 10 < n + 10 := by
  unfold ceilDiv
  omega

/-! ## Lemmas on the view and on `indexOf` -/

theorem filterThrowing_sublist (p : Chat → Option Bool) (l r : List Chat)
    (h : filterThrowing p l = some r) : r.Sublist l := by
  induction l generalizing r with
  | nil =>
    simp only [filterThrowing, Option.some.injEq] at h
    subst h; exact List.Sublist.slnil
  | cons a as ih =>
    rw [filterThrowing] at h
    split at h
    · simp at h
    · split at h
      · simp at h
      · next keepIt _ r' hr' =>
        have := Option.some.inj h
        subst this
        split
        · exact (ih r' hr').cons₂ a
        · exact (ih r' hr').cons a

theorem applyDateFilter_sublist (rt : Runtime) (chatsData : List Chat) (st : State) (e : Str)
    (h : st.filteredChats.Sublist chatsData) :
    ∀ st', (applyDateFilter rt chatsData st e = DateOutcome.applied st'
        ∨ applyDateFilter rt chatsData st e = DateOutcome.invalid st'
        ∨ applyDateFilter rt chatsData st e = DateOutcome.threw st') →
      st'.filteredChats.Sublist chatsData := by
  intro st' hst
  cases hdo : applyDateFilter rt chatsData st e with
  | applied s =>
    have hs : s = st' := by
      rw [hdo] at hst
      rcases hst with hst | hst | hst
      · exact DateOutcome.applied.inj hst
      · simp at hst
      · simp at hst
    subst hs
    simp only [applyDateFilter] at hdo
    split at hdo
    · simp only [DateOutcome.applied.injEq] at hdo
      subst hdo; exact h
    · split at hdo
      · split at hdo
        · next kept hk =>
          simp only [DateOutcome.applied.injEq] at hdo
          subst hdo
          exact filterThrowing_sublist _ _ _ hk
        · simp at hdo
      · simp at hdo
  | invalid s =>
    have hs : s = st' := by
      rw [hdo] at hst
      rcases hst with hst | hst | hst
      · simp at hst
      · exact DateOutcome.invalid.inj hst
      · simp at hst
    subst hs
    simp only [applyDateFilter] at hdo
    split at hdo
    · simp at hdo
    · split at hdo
      · split at hdo <;> simp at hdo
      · simp only [DateOutcome.invalid.injEq] at hdo
        subst hdo; exact h
  | threw s =>
    have hs : s = st' := by
      rw [hdo] at hst
      rcases hst with hst | hst | hst
      · simp at hst
      · simp at hst
      · exact DateOutcome.threw.inj hst
    subst hs
    simp only [applyDateFilter] at hdo
    split at hdo
    · simp at hdo
    · split at hdo
      · split at hdo
        · simp at hdo
        · simp only [DateOutcome.threw.injEq] at hdo
          subst hdo; exact h
      · simp at hdo

theorem step_view_sublist (rt : Runtime) (chatsData : List Chat) (cfg : Config) (line : Str)
    (h : cfg.st.filteredChats.Sublist chatsData) :
    (step rt chatsData cfg line).st.filteredChats.Sublist chatsData := by
  obtain ⟨ctl, st⟩ := cfg
  cases ctl with
  | command =>
    exact onCommand_cases chatsData st _ (fun c => c.st.filteredChats.Sublist chatsData)
      h h h h h h h (List.Sublist.refl _) h h h h h
  | pageNumber =>
    simp only [step, onPageNumber]
    repeat' split
    all_goals exact h
  | keyword =>
    simp only [step, applyKeywordFilter]
    split
    · exact h
    · exact List.filter_sublist _
  | date =>
    simp only [step]
    split
    · next st' heq => exact applyDateFilter_sublist rt chatsData st line h st' (Or.inl heq)
    · next st' heq =>
      exact applyDateFilter_sublist rt chatsData st line h st' (Or.inr (Or.inl heq))
    · next st' heq =>
      exact applyDateFilter_sublist rt chatsData st line h st' (Or.inr (Or.inr heq))
  | searchTerm =>
    simp only [step]
    split <;> exact h
  | pressEnter _ => exact h
  | done _ => exact h
  | threw => exact h

theorem run_view_sublist (rt : Runtime) (chatsData : List Chat) (lines : List Str) :
    (run rt chatsData lines).st.filteredChats.Sublist chatsData := by
  have key : ∀ (ls : List Str) (cfg : Config), cfg.st.filteredChats.Sublist chatsData →
      (ls.foldl (step rt chatsData) cfg).st.filteredChats.Sublist chatsData := by
    intro ls
    induction ls with
    | nil => intro cfg h; exact h
    | cons l ls ih => intro cfg h; exact ih _ (step_view_sublist rt chatsData cfg l h)
  exact key lines _ (List.Sublist.refl _)

theorem chatIndexOf_cons_of_mem (c : Chat) (cs : List Chat) (x : Chat)
    (hnd : ((c :: cs).map Chat.ref).Nodup) (hx : x ∈ cs) :
    chatIndexOf (c :: cs) x = chatIndexOf cs x + 1 := by
  have hne : c.ref ≠ x.ref := by
    intro e
    have hnot : c.ref ∉ cs.map Chat.ref := (List.nodup_cons.mp hnd).1
    exact hnot (e ▸ List.mem_map_of_mem Chat.ref hx)
  have h0 := (chatIndexOf_range cs x hx).1
  have h1 : chatIndexOf cs x ≠ -1 := by omega
  simp only [chatIndexOf, hne, if_false, h1]

theorem chatAt_cons_succ (c : Chat) (cs : List Chat) (i : Int) (h : 0 ≤ i) :
    chatAt (c :: cs) (i + 1) = chatAt cs i := by
  unfold chatAt
  have h1 : ¬ i + 1 < 0 := by omega
  have h2 : ¬ i < 0 := by omega
  have h3 : (i + 1).toNat = i.toNat + 1 := by omega
  simp only [h1, h2, if_false, h3, List.getElem?_cons_succ]

theorem indexOf_of_sublist (chatsData l : List Chat) (hnd : (chatsData.map Chat.ref).Nodup)
    (hsub : l.Sublist chatsData) :
    (l.map (chatIndexOf chatsData)).map (chatAt chatsData) = l.map some
      ∧ (l.map (chatIndexOf chatsData)).Pairwise (fun i j => i < j)
      ∧ ∀ i ∈ l.map (chatIndexOf chatsData), 0 ≤ i := by
  induction hsub with
  | slnil => simp
  | @cons l cs c hsub ih =>
    obtain ⟨h1, h2, h3⟩ := ih (List.nodup_cons.mp hnd).2
    have hshift : l.map (chatIndexOf (c :: cs)) = (l.map (chatIndexOf cs)).map (fun i => i + 1) := by
      rw [List.map_map]
      apply List.map_congr_left
      intro x hx
      exact chatIndexOf_cons_of_mem c cs x hnd (hsub.subset hx)
    rw [hshift]
    refine ⟨?_, ?_, ?_⟩
    · rw [← h1, List.map_map]
      apply List.map_congr_left
      intro i hi
      exact chatAt_cons_succ c cs i (h3 i hi)
    · exact List.Pairwise.map _ (fun a b hab => by omega) h2
    · intro i hi
      obtain ⟨j, hj, rfl⟩ := List.mem_map.mp hi
      have := h3 j hj
      omega
  | @cons₂ l cs c hsub ih =>
    obtain ⟨h1, h2, h3⟩ := ih (List.nodup_cons.mp hnd).2
    have hshift : l.map (chatIndexOf (c :: cs)) = (l.map (chatIndexOf cs)).map (fun i => i + 1) := by
      rw [List.map_map]
      apply List.map_congr_left
      intro x hx
      exact chatIndexOf_cons_of_mem c cs x hnd (hsub.subset hx)
    have hzero : chatIndexOf (c :: cs) c = 0 := by simp [chatIndexOf]
    rw [List.map_cons, hzero, hshift]
    refine ⟨?_, ?_, ?_⟩
    · rw [List.map_cons, List.map_cons, ← h1, List.map_map]
      congr 1
      · simp [chatAt]
      · apply List.map_congr_left
        intro i hi
        exact chatAt_cons_succ c cs i (h3 i hi)
    · rw [List.pairwise_cons]
      refine ⟨?_, List.Pairwise.map _ (fun a b hab => by omega) h2⟩
      intro i hi
      obtain ⟨j, hj, rfl⟩ := List.mem_map.mp hi
      have := h3 j hj
      omega
    · intro i hi
      rcases List.mem_cons.mp hi with rfl | hi
      · exact le_refl _
      · obtain ⟨j, hj, rfl⟩ := List.mem_map.mp hi
        have := h3 j hj
        omega

theorem indexOf_full_list (chatsData : List Chat) (hnd : (chatsData.map Chat.ref).Nodup) :
    chatsData.map (chatIndexOf chatsData)
      = (List.range chatsData.length).map Int.ofNat := by
  induction chatsData with
  | nil => rfl
  | cons c cs ih =>
    have hshift : cs.map (chatIndexOf (c :: cs)) = (cs.map (chatIndexOf cs)).map (fun i => i + 1) := by
      rw [List.map_map]
      apply List.map_congr_left
      intro x hx
      exact chatIndexOf_cons_of_mem c cs x hnd hx
    have hzero : chatIndexOf (c :: cs) c = 0 := by simp [chatIndexOf]
    rw [List.map_cons, hzero, hshift, ih (List.nodup_cons.mp hnd).2, List.length_cons,
      List.range_succ_eq_map]
    simp only [List.map_cons, List.map_map]
    congr 1

theorem onCommand_all (chatsData : List Chat) (st : State) :
    onCommand chatsData st "all".toList
      = { ctl := Ctl.done (st.filteredChats.map (chatIndexOf chatsData)), st := st } := by
  unfold onCommand
  rw [if_neg (by decide), if_neg (by decide), if_neg (by decide), if_neg (by decide),
    if_neg (by decide), if_neg (by decide), if_neg (by decide), if_neg (by decide),
    if_pos rfl]

/-! ## Lemmas on tokens with text after the number -/

theorem takeWhile_append_stop {α : Type} (p : α → Bool) (l tail : List α)
    (hl : ∀ a ∈ l, p a = true) (ht : ∀ a, tail.head? = some a → p a = false) :
    (l ++ tail).takeWhile p = l := by
  induction l with
  | nil =>
    cases tail with
    | nil => rfl
    | cons a as => simp [List.takeWhile, ht a rfl]
  | cons a as ih =>
    simp [List.takeWhile, hl a (by simp), ih (fun b hb => hl b (by simp [hb]))]

theorem stripRadix_digits_append (ds tail : Str) (hne : ds ≠ [])
    (hd : ∀ c ∈ ds, ∃ k, k < 10 ∧ c = Nat.digitChar k)
    (ht : ∀ c, tail.head? = some c → c ≠ 'x' ∧ c ≠ 'X') :
    stripRadix (ds ++ tail) = (10, ds ++ tail) := by
  have hsecond : ∀ c d r, ds ++ tail = c :: d :: r → d ≠ 'x' ∧ d ≠ 'X' := by
    intro c d r e
    cases ds with
    | nil => exact absurd rfl hne
    | cons a as =>
      cases as with
      | nil =>
        have e' : tail = d :: r := (List.cons.inj e).2
        exact ht d (by rw [e']; rfl)
      | cons b bs =>
        have e' : b = d := (List.cons.inj (List.cons.inj e).2).1
        have hb := digitChar_props b (hd b (by simp))
        rw [e'] at hb
        exact ⟨hb.2.2.2.2.2.1, hb.2.2.2.2.2.2.1⟩
  unfold stripRadix
  split
  · next r heq => exact absurd rfl (hsecond _ _ _ heq).1
  · next r heq => exact absurd rfl (hsecond _ _ _ heq).2
  · rfl

theorem parseInt_digits_append (ds tail : Str) (hne : ds ≠ [])
    (hd : ∀ c ∈ ds, ∃ k, k < 10 ∧ c = Nat.digitChar k)
    (ht : ∀ c, tail.head? = some c → (digitValue 10 c).isSome = false ∧ c ≠ 'x' ∧ c ≠ 'X') :
    parseInt (ds ++ tail) = some ((decimalValue ds : Nat) : Int) := by
  obtain ⟨c, cs, rfl⟩ := List.exists_cons_of_ne_nil hne
  have hc := digitChar_props c (hd c (by simp))
  have h1 : trimStart (c :: cs ++ tail) = c :: cs ++ tail := by
    simp [trimStart, List.dropWhile, hc.2.1]
  have h2 : stripSign (c :: cs ++ tail) = (1, c :: cs ++ tail) := by
    unfold stripSign
    split
    · next r heq => exact absurd (List.cons.inj heq).1 hc.2.2.1
    · next r heq => exact absurd (List.cons.inj heq).1 hc.2.2.2.1
    · rfl
  have h3 := stripRadix_digits_append (c :: cs) tail hne hd (fun a ha => (ht a ha).2)
  have h4 : (c :: cs ++ tail).takeWhile (fun c => (digitValue 10 c).isSome) = c :: cs :=
    takeWhile_append_stop _ _ _ (fun a ha => by
      obtain ⟨⟨k, _, hk⟩, _⟩ := digitChar_props a (hd a ha)
      simp [hk]) (fun a ha => (ht a ha).1)
  unfold parseInt
  simp only [h1, h2, h3, h4]
  simp [decimalValue]

theorem parseInt_numeral_append (n : Nat) (tail : Str)
    (ht : ∀ c, tail.head? = some c → (digitValue 10 c).isSome = false ∧ c ≠ 'x' ∧ c ≠ 'X') :
    parseInt (Nat.toDigits 10 n ++ tail) = some (Int.ofNat n) := by
  obtain ⟨h1, h2, h3⟩ := toDigits_spec n
  rw [parseInt_digits_append _ tail h1 h2 ht, h3]
  rfl

theorem validNums_source (chatsData : List Chat) (command : Str) :
    ∀ i ∈ validNums chatsData command,
      ∃ tok ∈ split ',' command, parseInt (trim tok) = some (i + 1) := by
  intro i hi
  simp only [validNums, List.mem_filterMap, List.mem_map] at hi
  obtain ⟨num, ⟨tok, htok, hnum⟩, hv⟩ := hi
  cases hp : parseInt (trim tok) with
  | none =>
    rw [hp] at hnum
    simp only [Option.map_none'] at hnum
    subst hnum
    simp at hv
  | some v =>
    rw [hp] at hnum
    simp only [Option.map_some'] at hnum
    subst hnum
    simp only at hv
    split at hv
    · have : v - 1 = i := Option.some.inj hv
      exact ⟨tok, htok, by rw [← this, hp]; simp⟩
    · simp at hv

theorem validNums_all_nan (chatsData : List Chat) (command : Str)
    (h : ∀ tok ∈ split ',' command, parseInt (trim tok) = none) :
    validNums chatsData command = [] := by
  apply List.eq_nil_iff_forall_not_mem.mpr
  intro i hi
  obtain ⟨tok, htok, hp⟩ := validNums_source chatsData command i hi
  rw [h tok htok] at hp
  simp at hp

theorem onCommand_not_token (chatsData : List Chat) (st : State) (command : Str)
    (h : command ∉ commandTokens) :
    onCommand chatsData st command
      = if (validNums chatsData command).length > 0 then
          { ctl := Ctl.done (validNums chatsData command), st := st }
        else { ctl := Ctl.pressEnter Notice.invalidSelection, st := st } := by
  have hne : ∀ tok ∈ commandTokens, command ≠ tok := fun tok ht e => h (e ▸ ht)
  unfold onCommand
  rw [if_neg (hne _ (by decide)), if_neg (hne _ (by decide)), if_neg (hne _ (by decide)),
    if_neg (hne _ (by decide)), if_neg (hne _ (by decide)), if_neg (hne _ (by decide)),
    if_neg (hne _ (by decide)), if_neg (hne _ (by decide)), if_neg (hne _ (by decide)),
    if_neg (hne _ (by decide))]

/-! ## Lemmas on the generated document and on a rejected date -/

theorem renderChats_of_interactions (rt : Runtime) (chatsData : List Chat) (opts : ExportOptions)
    (sel : List Int) (count : Nat)
    (h : ∀ idx ∈ sel, ∃ chat l, chatAt chatsData idx = some chat ∧ chat.interactions = some l) :
    renderChats rt chatsData opts sel count
      = some ((sel.enumFrom count).map
          (fun p => expectedSection rt chatsData opts p.1 p.2)).flatten := by
  induction sel generalizing count with
  | nil => rfl
  | cons idx rest ih =>
    obtain ⟨chat, l, hc, hl⟩ := h idx (by simp)
    have hr : renderChat rt chatsData opts idx count
        = some (expectedSection rt chatsData opts count idx) := by
      simp [renderChat, expectedSection, hc, hl]
    rw [renderChats, hr, ih (count + 1) (fun i hi => h i (by simp [hi]))]
    simp [List.enumFrom]

/-- On a selection whose records all have an `interactions` array, the
generated document is the one the spec describes. -/
theorem generateMarkdown_of_interactions (rt : Runtime) (chatsData : List Chat)
    (opts : ExportOptions) (sel : List Int)
    (h : ∀ idx ∈ sel, ∃ chat l, chatAt chatsData idx = some chat ∧ chat.interactions = some l) :
    generateMarkdown rt chatsData opts sel = some (expectedDocument rt chatsData opts sel) := by
  rw [generateMarkdown, renderChats_of_interactions rt chatsData opts sel 0 h]
  rfl

/-- A record without `interactions` in the selection makes the generation
throw. -/
theorem generateMarkdown_of_absent (rt : Runtime) (chatsData : List Chat)
    (opts : ExportOptions) (sel : List Int) (idx : Int) (chat : Chat) (hmem : idx ∈ sel)
    (hc : chatAt chatsData idx = some chat) (hnone : chat.interactions = none) :
    generateMarkdown rt chatsData opts sel = none := by
  have key : ∀ (s : List Int) (count : Nat), idx ∈ s →
      renderChats rt chatsData opts s count = none := by
    intro s
    induction s with
    | nil => intro _ hm; simp at hm
    | cons i rest ih =>
      intro count hm
      rw [renderChats]
      rcases List.mem_cons.mp hm with rfl | hm'
      · simp [renderChat, hc, hnone]
      · split
        · rw [ih (count + 1) hm']
        · rfl
  rw [generateMarkdown, key sel 0 hmem]
  rfl

/-- A date entry that does not parse is rejected, and the state keeps every
variable but `dateFilter`, which holds the entry. -/
theorem applyDateFilter_invalid (rt : Runtime) (chatsData : List Chat) (st : State) (e : Str)
    (hne : e ≠ [])
    (hp : rt.parseDate (if (startsWith e ">".toList || startsWith e "<".toList) = true
            then trim (e.drop 1) else e) = none) :
    applyDateFilter rt chatsData st e = DateOutcome.invalid { st with dateFilter := e } := by
  have he : e.isEmpty = false := by cases e <;> simp at hne ⊢
  simp only [applyDateFilter, he, Bool.false_eq_true, if_false]
  rw [hp]

/-! ## Lemmas on what `parseInt` reads -/

theorem parseInt_eq_readBody (s : Str) :
    parseInt s = readBody (stripSign (trimStart s)).1 (stripSign (trimStart s)).2 := rfl

theorem trimStart_append (ws t : Str) (hws : ∀ c ∈ ws, isWhiteSpace c = true)
    (ht : ∀ c, t.head? = some c → isWhiteSpace c = false) : trimStart (ws ++ t) = t := by
  induction ws with
  | nil =>
    cases t with
    | nil => rfl
    | cons c cs => simp [trimStart, List.dropWhile, ht c rfl]
  | cons w ws ih =>
    have h1 : isWhiteSpace w = true := hws w (by simp)
    have h2 := ih (fun c hc => hws c (by simp [hc]))
    simp only [trimStart] at h2 ⊢
    simp [List.dropWhile, h1, h2]

theorem parseInt_shape (ws : Str) (sg : Str × Int) (body : Str)
    (hws : ∀ c ∈ ws, isWhiteSpace c = true) (hsg : sg ∈ signTexts)
    (hbody : sg.1 = [] → ∀ c, body.head? = some c →
      isWhiteSpace c = false ∧ c ≠ '+' ∧ c ≠ '-') :
    parseInt (ws ++ sg.1 ++ body) = readBody sg.2 body := by
  have hmem : sg = ([], 1) ∨ sg = ("+".toList, 1) ∨ sg = ("-".toList, -1) := by
    simpa [signTexts] using hsg
  rw [parseInt_eq_readBody, List.append_assoc]
  rcases hmem with rfl | rfl | rfl
  · have hb := hbody rfl
    have h1 : trimStart (ws ++ ([] ++ body)) = body :=
      trimStart_append ws _ hws (fun c hc => (hb c hc).1)
    have h2 : stripSign body = (1, body) := by
      unfold stripSign
      split
      · next r => exact absurd rfl (hb '-' rfl).2.2
      · next r => exact absurd rfl (hb '+' rfl).2.1
      · rfl
    rw [h1, h2]
  · have h1 : trimStart (ws ++ ("+".toList ++ body)) = '+' :: body :=
      trimStart_append ws _ hws (fun c hc => by
        have : c = '+' := by
          have e : some '+' = some c := hc
          exact (Option.some.inj e).symm
        subst this; decide)
    rw [h1]
    rfl
  · have h1 : trimStart (ws ++ ("-".toList ++ body)) = '-' :: body :=
      trimStart_append ws _ hws (fun c hc => by
        have : c = '-' := by
          have e : some '-' = some c := hc
          exact (Option.some.inj e).symm
        subst this; decide)
    rw [h1]
    rfl

theorem stripRadix_numeral (n : Nat) (tail : Str)
    (ht : ∀ c, tail.head? = some c → n = 0 → c ≠ 'x' ∧ c ≠ 'X') :
    stripRadix (Nat.toDigits 10 n ++ tail) = (10, Nat.toDigits 10 n ++ tail) := by
  obtain ⟨h1, h2, h3⟩ := toDigits_spec n
  have hsecond : ∀ d r, Nat.toDigits 10 n ++ tail = '0' :: d :: r → d ≠ 'x' ∧ d ≠ 'X' := by
    intro d r e
    generalize Nat.toDigits 10 n = ds at h1 h2 h3 e
    cases ds with
    | nil => exact absurd rfl h1
    | cons a as =>
      cases as with
      | nil =>
        have ea : a = '0' := (List.cons.inj e).1
        have e' : tail = d :: r := (List.cons.inj e).2
        have hn : n = 0 := by
          rw [← h3, ea]
          decide
        exact ht d (by rw [e']; rfl) hn
      | cons b bs =>
        have e' : b = d := (List.cons.inj (List.cons.inj e).2).1
        have hb := digitChar_props b (h2 b (by simp))
        rw [e'] at hb
        exact ⟨hb.2.2.2.2.2.1, hb.2.2.2.2.2.2.1⟩
  unfold stripRadix
  split
  · next r heq => exact absurd rfl (hsecond _ _ heq).1
  · next r heq => exact absurd rfl (hsecond _ _ heq).2
  · rfl

theorem readBody_numeral (sign : Int) (n : Nat) (tail : Str)
    (ht : ∀ c, tail.head? = some c →
      (digitValue 10 c).isSome = false ∧ (n = 0 → c ≠ 'x' ∧ c ≠ 'X')) :
    readBody sign (Nat.toDigits 10 n ++ tail) = some (sign * (n : Int)) := by
  obtain ⟨h1, h2, h3⟩ := toDigits_spec n
  have hr := stripRadix_numeral n tail (fun c hc => (ht c hc).2)
  have htw : (Nat.toDigits 10 n ++ tail).takeWhile (fun c => (digitValue 10 c).isSome)
      = Nat.toDigits 10 n :=
    takeWhile_append_stop _ _ _ (fun a ha => by
      obtain ⟨⟨k, _, hk⟩, _⟩ := digitChar_props a (h2 a ha)
      simp [hk]) (fun a ha => (ht a ha).1)
  have hne : (Nat.toDigits 10 n).isEmpty = false := by
    cases hd : Nat.toDigits 10 n with
    | nil => exact absurd hd h1
    | cons c cs => rfl
  unfold readBody
  simp only [hr, htw, hne, Bool.false_eq_true, if_false]
  have hv : List.foldl (fun acc c => acc * 10 + (digitValue 10 c).getD 0) 0 (Nat.toDigits 10 n)
      = n := h3
  rw [hv]

theorem digitValue16_digitChar (k : Nat) (h : k < 16) :
    digitValue 16 (Nat.digitChar k) = some k := by
  interval_cases k <;> decide

theorem toDigitsCore_spec16 (fuel n : Nat) (ds : Str) (h : n < fuel) :
    ∃ pre, Nat.toDigitsCore 16 fuel n ds = pre ++ ds ∧ pre ≠ []
      ∧ (∀ c ∈ pre, ∃ k, k < 16 ∧ c = Nat.digitChar k) ∧ hexValue pre = n := by
  induction fuel generalizing n ds with
  | zero => omega
  | succ fuel ih =>
    have hlt : n % 16 < 16 := Nat.mod_lt _ (by decide)
    have hd := digitValue16_digitChar (n % 16) hlt
    rw [Nat.toDigitsCore]
    by_cases h0 : n / 16 = 0
    · simp only [h0, if_true]
      refine ⟨[Nat.digitChar (n % 16)], rfl, by simp, ?_, ?_⟩
      · intro c hc
        exact ⟨n % 16, hlt, List.mem_singleton.mp hc⟩
      · simp only [hexValue, List.foldl_cons, List.foldl_nil]
        rw [hd, Option.getD_some]
        omega
    · simp only [h0, if_false]
      obtain ⟨pre, h1, _, h3, h4⟩ := ih (n / 16) (Nat.digitChar (n % 16) :: ds) (by omega)
      refine ⟨pre ++ [Nat.digitChar (n % 16)], by simp [h1], by simp, ?_, ?_⟩
      · intro c hc
        rcases List.mem_append.mp hc with hc | hc
        · exact h3 c hc
        · exact ⟨n % 16, hlt, List.mem_singleton.mp hc⟩
      · have h4' : List.foldl (fun acc c => acc * 16 + (digitValue 16 c).getD 0) 0 pre
            = n / 16 := h4
        simp only [hexValue, List.foldl_append, List.foldl_cons, List.foldl_nil]
        rw [h4', hd, Option.getD_some]
        omega

theorem toDigits16_spec (n : Nat) :
    Nat.toDigits 16 n ≠ [] ∧ (∀ c ∈ Nat.toDigits 16 n, ∃ k, k < 16 ∧ c = Nat.digitChar k)
      ∧ hexValue (Nat.toDigits 16 n) = n := by
  obtain ⟨pre, h1, h2, h3, h4⟩ := toDigitsCore_spec16 (n + 1) n [] (by omega)
  rw [Nat.toDigits, h1, List.append_nil]
  exact ⟨h2, h3, h4⟩

theorem readBody_hex (sign : Int) (x : Char) (n : Nat) (tail : Str)
    (hx : x = 'x' ∨ x = 'X')
    (ht : ∀ c, tail.head? = some c → (digitValue 16 c).isSome = false) :
    readBody sign ('0' :: x :: (Nat.toDigits 16 n ++ tail)) = some (sign * (n : Int)) := by
  obtain ⟨h1, h2, h3⟩ := toDigits16_spec n
  have hr : stripRadix ('0' :: x :: (Nat.toDigits 16 n ++ tail))
      = (16, Nat.toDigits 16 n ++ tail) := by
    rcases hx with rfl | rfl <;> rfl
  have htw : (Nat.toDigits 16 n ++ tail).takeWhile (fun c => (digitValue 16 c).isSome)
      = Nat.toDigits 16 n :=
    takeWhile_append_stop _ _ _ (fun a ha => by
      obtain ⟨k, hk, rfl⟩ := h2 a ha
      simp [digitValue16_digitChar k hk]) ht
  have hne : (Nat.toDigits 16 n).isEmpty = false := by
    cases hd : Nat.toDigits 16 n with
    | nil => exact absurd hd h1
    | cons c cs => rfl
  unfold readBody
  simp only [hr, htw, hne, Bool.false_eq_true, if_false]
  have hv : List.foldl (fun acc c => acc * 16 + (digitValue 16 c).getD 0) 0 (Nat.toDigits 16 n)
      = n := h3
  rw [hv]

theorem readBody_no_digit (sign : Int) (rest : Str)
    (h : ∀ c, rest.head? = some c → (digitValue 10 c).isSome = false) :
    readBody sign rest = none := by
  have hr : stripRadix rest = (10, rest) := by
    unfold stripRadix
    split
    · next r => exact absurd (h '0' rfl) (by decide)
    · next r => exact absurd (h '0' rfl) (by decide)
    · rfl
  have htw : rest.takeWhile (fun c => (digitValue 10 c).isSome) = [] := by
    cases rest with
    | nil => rfl
    | cons c cs => simp [List.takeWhile, h c rfl]
  unfold readBody
  simp [hr, htw]

/-! ## Inversion of a match -/

theorem matchAtoms_lit_inv (l : Str) (re : List Atom) (s : Str) (y : List Str × Str)
    (h : matchAtoms (Atom.lit l :: re) s = some y) :
    ∃ s', s = l ++ s' ∧ matchAtoms re s' = some y := by
  rw [matchAtoms] at h
  split at h
  · next hsw =>
    have hp : l <+: s := List.isPrefixOf_iff_prefix.mp hsw
    refine ⟨s.drop l.length, ?_, h⟩
    exact (List.prefix_iff_eq_append.mp hp).symm
  · exact absurd h (by simp)

theorem greedyStar_inv {β : Type} (cls : Char → Bool) (k : Str → Option β) (s : Str)
    (x : Str × β) (h : greedyStar cls k s = some x) :
    ∃ t, s = x.1 ++ t ∧ k t = some x.2 ∧ ∀ c ∈ x.1, cls c = true := by
  have base : ∀ u : Str, (k u).map (fun r => (([] : Str), r)) = some x →
      ∃ t, u = x.1 ++ t ∧ k t = some x.2 ∧ ∀ c ∈ x.1, cls c = true := by
    intro u hu
    rw [Option.map_eq_some'] at hu
    obtain ⟨a, ha, he⟩ := hu
    subst he
    exact ⟨u, rfl, ha, by intro c hc; exact absurd hc (List.not_mem_nil c)⟩
  induction s generalizing x with
  | nil =>
    rw [greedyStar] at h
    exact base [] h
  | cons c cs ih =>
    rw [greedyStar] at h
    by_cases hc : cls c = true
    · rw [if_pos hc] at h
      cases hg : greedyStar cls k cs with
      | none =>
        rw [hg] at h
        exact base (c :: cs) h
      | some y =>
        rw [hg] at h
        have e : (c :: y.1, y.2) = x := Option.some.inj h
        subst e
        obtain ⟨t, h1, h2, h3⟩ := ih y hg (fun u hu => by
          rw [Option.map_eq_some'] at hu
          obtain ⟨a, ha, he⟩ := hu
          subst he
          exact ⟨u, rfl, ha, by intro c hc; exact absurd hc (List.not_mem_nil c)⟩)
        refine ⟨t, by rw [h1]; rfl, h2, ?_⟩
        intro d hd
        rcases List.mem_cons.mp hd with rfl | hd
        · exact hc
        · exact h3 d hd
    · rw [if_neg hc] at h
      exact base (c :: cs) h

theorem lazyStar_inv {β : Type} (cls : Char → Bool) (k : Str → Option β) (s : Str)
    (x : Str × β) (h : lazyStar cls k s = some x) :
    ∃ t, s = x.1 ++ t ∧ k t = some x.2 := by
  induction s generalizing x with
  | nil =>
    rw [lazyStar, Option.map_eq_some'] at h
    obtain ⟨a, ha, he⟩ := h
    subst he
    exact ⟨[], rfl, ha⟩
  | cons c cs ih =>
    cases hk : k (c :: cs) with
    | some r =>
      rw [lazyStar_cons_some cls k c cs r hk] at h
      have e := Option.some.inj h
      subst e
      exact ⟨c :: cs, rfl, hk⟩
    | none =>
      rw [lazyStar, hk] at h
      by_cases hc : cls c = true
      · simp only [hc, if_true, Option.map_eq_some'] at h
        obtain ⟨a, ha, he⟩ := h
        subst he
        obtain ⟨t, h1, h2⟩ := ih a ha
        exact ⟨t, by rw [h1]; rfl, h2⟩
      · simp only [hc] at h
        exact absurd h (by simp)

theorem matchAtoms_plusGreedy_inv (cls : Char → Bool) (re : List Atom) (s : Str)
    (caps : List Str) (rest : Str)
    (h : matchAtoms (Atom.plusGreedy cls :: re) s = some (caps, rest)) :
    ∃ cap s' caps', s = cap ++ s' ∧ matchAtoms re s' = some (caps', rest)
      ∧ caps = cap :: caps' ∧ ∀ c ∈ cap, cls c = true := by
  cases s with
  | nil => simp [matchAtoms] at h
  | cons c cs =>
    rw [matchAtoms] at h
    split at h
    · next hc =>
      simp only [Option.map_eq_some'] at h
      obtain ⟨x, hx, he⟩ := h
      have e := Prod.mk.inj he
      obtain ⟨t, h1, h2, h3⟩ := greedyStar_inv cls (matchAtoms re) cs x hx
      refine ⟨c :: x.1, t, x.2.1, by rw [h1]; rfl, by rw [h2, ← e.2], e.1.symm, ?_⟩
      intro d hd
      rcases List.mem_cons.mp hd with rfl | hd
      · exact hc
      · exact h3 d hd
    · exact absurd h (by simp)

theorem matchAtoms_starLazy_inv (cls : Char → Bool) (re : List Atom) (s : Str)
    (caps : List Str) (rest : Str)
    (h : matchAtoms (Atom.starLazy cls :: re) s = some (caps, rest)) :
    ∃ cap s' caps', s = cap ++ s' ∧ matchAtoms re s' = some (caps', rest)
      ∧ caps = cap :: caps' := by
  rw [matchAtoms] at h
  simp only [Option.map_eq_some'] at h
  obtain ⟨x, hx, he⟩ := h
  have e := Prod.mk.inj he
  obtain ⟨t, h1, h2⟩ := lazyStar_inv cls (matchAtoms re) s x hx
  exact ⟨x.1, t, x.2.1, h1, by rw [h2, ← e.2], e.1.symm⟩

theorem matchAtoms_nil_inv (s : Str) (caps : List Str) (rest : Str)
    (h : matchAtoms [] s = some (caps, rest)) : caps = [] ∧ rest = s := by
  simp only [matchAtoms, Option.some.injEq, Prod.mk.injEq] at h
  exact ⟨h.1.symm, h.2.symm⟩

theorem matchAtoms_think_inv (u : Str) (caps : List Str) (rest : Str)
    (h : matchAtoms thinkRegex u = some (caps, rest)) :
    ∃ content, u = openMarker ++ (content ++ (closeMarker ++ rest)) := by
  obtain ⟨s1, h1, m1⟩ := matchAtoms_lit_inv _ _ _ _ h
  obtain ⟨content, s2, caps2, h2, m2, _⟩ := matchAtoms_starLazy_inv _ _ _ _ _ m1
  obtain ⟨s3, h3, m3⟩ := matchAtoms_lit_inv _ _ _ _ m2
  obtain ⟨_, h4⟩ := matchAtoms_nil_inv _ _ _ m3
  exact ⟨content, by rw [h1, h2, h3, h4]; rfl⟩

theorem matchAtoms_codeBlock_inv (s : Str) (caps : List Str) (rest : Str)
    (h : matchAtoms codeBlockRegex s = some (caps, rest)) :
    ∃ language filePath code, caps = [language, filePath, code]
      ∧ s = "```".toList ++ (language ++ (":".toList ++ (filePath ++ ("\n".toList
          ++ (code ++ ("```".toList ++ rest))))))
      ∧ ∀ c ∈ language, isLangChar c = true := by
  obtain ⟨s1, h1, m1⟩ := matchAtoms_lit_inv _ _ _ _ h
  obtain ⟨language, s2, caps2, h2, m2, e2, hl⟩ := matchAtoms_plusGreedy_inv _ _ _ _ _ m1
  obtain ⟨s3, h3, m3⟩ := matchAtoms_lit_inv _ _ _ _ m2
  obtain ⟨filePath, s4, caps4, h4, m4, e4, _⟩ := matchAtoms_plusGreedy_inv _ _ _ _ _ m3
  obtain ⟨s5, h5, m5⟩ := matchAtoms_lit_inv _ _ _ _ m4
  obtain ⟨code, s6, caps6, h6, m6, e6⟩ := matchAtoms_starLazy_inv _ _ _ _ _ m5
  obtain ⟨s7, h7, m7⟩ := matchAtoms_lit_inv _ _ _ _ m6
  obtain ⟨e8, h8⟩ := matchAtoms_nil_inv _ _ _ m7
  refine ⟨language, filePath, code, ?_, ?_, hl⟩
  · rw [e2, e4, e6, e8]
  · rw [h1, h2, h3, h4, h5, h6, h7, h8]

theorem lazyStar_lit_none_iff (l s : Str) :
    lazyStar anyUnit (matchAtoms [Atom.lit l]) s = none ↔ ¬ l <:+: s := by
  induction s with
  | nil =>
    cases l with
    | nil => simp [lazyStar, matchAtoms, startsWith]
    | cons d ds => simp [lazyStar, matchAtoms, startsWith]
  | cons c cs ih =>
    rw [List.infix_cons_iff, not_or]
    by_cases hsw : startsWith (c :: cs) l = true
    · have hp : l <+: c :: cs := List.isPrefixOf_iff_prefix.mp hsw
      have hk : matchAtoms [Atom.lit l] (c :: cs) = some ([], (c :: cs).drop l.length) := by
        rw [matchAtoms_single_lit, if_pos hsw]
      rw [lazyStar_cons_some _ _ c cs _ hk]
      constructor
      · intro h; exact absurd h (by simp)
      · intro h; exact absurd hp h.1
    · have hp : ¬ l <+: c :: cs := fun hp => hsw (List.isPrefixOf_iff_prefix.mpr hp)
      have hk : matchAtoms [Atom.lit l] (c :: cs) = none := by
        rw [matchAtoms_single_lit, if_neg hsw]
      rw [lazyStar_cons_none _ c cs hk, Option.map_eq_none', ih]
      constructor
      · intro h; exact ⟨hp, h⟩
      · intro h; exact h.2

theorem matchAtoms_think_none_iff (u : Str) :
    matchAtoms thinkRegex u = none
      ↔ ¬ (openMarker <+: u ∧ closeMarker <:+: u.drop 7) := by
  by_cases hsw : startsWith u openMarker = true
  · have hp : openMarker <+: u := List.isPrefixOf_iff_prefix.mp hsw
    have h1 : matchAtoms thinkRegex u
        = (lazyStar anyUnit (matchAtoms [Atom.lit closeMarker]) (u.drop 7)).map
            (fun x => (x.1 :: x.2.1, x.2.2)) := by
      have hsw' : startsWith u "<think>".toList = true := hsw
      rw [thinkRegex, matchAtoms, if_pos hsw', matchAtoms]
      rfl
    rw [h1, Option.map_eq_none', lazyStar_lit_none_iff]
    constructor
    · intro h hc; exact h hc.2
    · intro h hc; exact h ⟨hp, hc⟩
  · have hp : ¬ openMarker <+: u := fun hp => hsw (List.isPrefixOf_iff_prefix.mpr hp)
    have hsw' : ¬ startsWith u "<think>".toList = true := hsw
    rw [thinkRegex, matchAtoms, if_neg hsw']
    constructor
    · intro _ hc; exact hp hc.1
    · intro _; rfl

theorem replaceFrom_no_match (re : List Atom) (f : List Str → Str) (s : Str)
    (h : ∀ u, u <:+ s → matchAtoms re u = none) : replaceFrom re f s 0 = s := by
  induction s with
  | nil => rw [replaceFrom, h [] (List.suffix_refl _)]
  | cons c cs ih =>
    rw [replaceFrom, h (c :: cs) (List.suffix_refl _),
      ih (fun u hu => h u (hu.trans (List.suffix_cons c cs)))]

/-! ## Thinking regions and the removal scan -/

theorem unfinished_ne_nil : ∀ p ∈ unfinishedOpenings, p ≠ [] := by decide

theorem unfinished_dropLast :
    ∀ p ∈ unfinishedOpenings, p.dropLast = [] ∨ p.dropLast ∈ unfinishedOpenings := by decide

theorem unfinished_concat (q : Str) (x : Char) (h : q ++ [x] ∈ unfinishedOpenings) :
    q = [] ∨ q ∈ unfinishedOpenings := by
  have := unfinished_dropLast _ h
  rwa [List.dropLast_concat] at this

theorem openMarker_concat (q : Str) (x : Char) (h : openMarker = q ++ [x]) :
    q ∈ unfinishedOpenings ∧ x = '>' := by
  have h1 : q = openMarker.dropLast := by rw [h, List.dropLast_concat]
  have h2 : openMarker.getLast? = some x := by rw [h, List.getLast?_concat]
  have h3 : openMarker.getLast? = some '>' := by decide
  constructor
  · rw [h1]; decide
  · rw [h3] at h2; exact (Option.some.inj h2).symm

theorem hasRegion_of_parts (x y z : Str) :
    HasRegion (x ++ openMarker ++ y ++ closeMarker ++ z) :=
  ⟨x ++ openMarker, y ++ closeMarker ++ z, by simp, ⟨x, [], by simp⟩, ⟨y, z, by simp⟩⟩

theorem infix_of_append_short (M : Str) (e : Char) (hM : M.getLast? = some e) (w c : Str)
    (hc : e ∉ c) (h : M <:+: w ++ c) : M <:+: w := by
  induction c using List.reverseRecOn with
  | nil => simpa using h
  | append_singleton c x ih =>
    have hx : x ≠ e := fun e1 => hc (by simp [e1])
    have hc1 : e ∉ c := fun e1 => hc (by simp [e1])
    rw [← List.append_assoc, List.infix_concat_iff] at h
    rcases h with h | h
    · exfalso
      rcases List.suffix_concat_iff.mp h with h0 | ⟨t, ht, _⟩
      · rw [h0] at hM; simp at hM
      · rw [ht, List.getLast?_concat] at hM
        exact hx (Option.some.inj hM)
    · exact ih hc1 h

theorem openMarker_inits_short :
    ∀ c ∈ openMarker.inits, c.length < 7 → '>' ∉ c := by decide

theorem no_region_of_unclosed (w t : Str) (hNo : ¬ openMarker <:+: w)
    (hO : openMarker <+: t) (hC : ¬ closeMarker <:+: t.drop 7) :
    ¬ HasRegion (w ++ t) := by
  rintro ⟨s1, s2, he, h1, h2⟩
  rcases List.append_eq_append_iff.mp he with ⟨c, hc, ht⟩ | ⟨a, ha, _⟩
  · by_cases hl : 7 ≤ c.length
    · apply hC
      rw [ht, List.drop_append_of_le_length hl]
      exact h2.trans ⟨c.drop 7, [], by simp⟩
    · have hcp : c <+: openMarker := by
        refine List.prefix_of_prefix_length_le ⟨s2, ht.symm⟩ hO ?_
        have : openMarker.length = 7 := rfl
        omega
      have hn := openMarker_inits_short c ((List.mem_inits c openMarker).mpr hcp) (by omega)
      rw [hc] at h1
      exact hNo (infix_of_append_short openMarker '>' (by decide) w c hn h1)
  · apply hNo
    rw [ha]
    exact h1.trans ⟨[], a, by simp⟩

theorem think_none_suffix (t : Str)
    (hC : ¬ closeMarker <:+: t.drop 7) (u : Str) (hu : u <:+ t) :
    matchAtoms thinkRegex u = none := by
  cases hm : matchAtoms thinkRegex u with
  | none => rfl
  | some y =>
    exfalso
    obtain ⟨content, hc⟩ := matchAtoms_think_inv u y.1 y.2 hm
    obtain ⟨v, hv⟩ := hu
    apply hC
    have e : t = (v ++ (openMarker ++ content)) ++ (closeMarker ++ y.2) := by
      rw [← hv, hc]; simp
    have hl : 7 ≤ (v ++ (openMarker ++ content)).length := by
      have : openMarker.length = 7 := rfl
      simp only [List.length_append]; omega
    rw [e, List.drop_append_of_le_length hl]
    exact ⟨(v ++ (openMarker ++ content)).drop 7, y.2, by simp⟩

theorem replaceFrom_think_step (f : List Str → Str) (x : Char) (t : Str)
    (h : matchAtoms thinkRegex (x :: t) = none) :
    replaceFrom thinkRegex f (x :: t) 0 = x :: replaceFrom thinkRegex f t 0 := by
  rw [replaceFrom, h]

theorem replaceFrom_think_block (content rest : Str) (caps : List Str)
    (h : matchAtoms thinkRegex (openMarker ++ (content ++ (closeMarker ++ rest)))
      = some (caps, rest)) :
    replaceFrom thinkRegex (fun _ => []) (openMarker ++ (content ++ (closeMarker ++ rest))) 0
      = replaceFrom thinkRegex (fun _ => []) rest 0 := by
  have e : openMarker ++ (content ++ (closeMarker ++ rest))
      = '<' :: (("think>".toList ++ (content ++ closeMarker)) ++ rest) := by
    simp [openMarker]
  rw [e] at h ⊢
  rw [replaceFrom_match thinkRegex (fun _ => []) '<' _ rest caps h]
  rfl

theorem remove_scan (n : Nat) : ∀ (a w t : Str), t.length ≤ n →
    (∀ p ∈ unfinishedOpenings, ¬ (p ++ openMarker) <:+: a ++ t) →
    (∀ p ∈ unfinishedOpenings, p <:+ w → p <:+ a) →
    (∀ p ∈ unfinishedOpenings, p <:+ w → ¬ openMarker <+: p ++ t) →
    ¬ openMarker <:+: w →
    ¬ HasRegion (w ++ replaceFrom thinkRegex (fun _ => []) t 0) := by
  induction n with
  | zero =>
    intro a w t hl _ _ _ hNo
    have ht : t = [] := List.length_eq_zero.mp (Nat.le_zero.mp hl)
    subst ht
    rw [thinkRegex_eq, replaceFrom_nil_lit, List.append_nil]
    rintro ⟨s1, s2, he, h1, _⟩
    exact hNo (h1.trans ⟨[], s2, by rw [he]; simp⟩)
  | succ n ih =>
    intro a w t hl hC hInv hE hNo
    cases t with
    | nil =>
      rw [thinkRegex_eq, replaceFrom_nil_lit, List.append_nil]
      rintro ⟨s1, s2, he, h1, _⟩
      exact hNo (h1.trans ⟨[], s2, by rw [he]; simp⟩)
    | cons x t =>
      cases hm : matchAtoms thinkRegex (x :: t) with
      | some y =>
        obtain ⟨content, hc⟩ := matchAtoms_think_inv (x :: t) y.1 y.2 hm
        have hnone : ∀ p ∈ unfinishedOpenings, ¬ p <:+ w := by
          intro p hp hpw
          obtain ⟨a0, ha0⟩ := hInv p hp hpw
          apply hC p hp
          refine ⟨a0, content ++ (closeMarker ++ y.2), ?_⟩
          rw [hc, ← ha0]; simp
        rw [hc] at hm ⊢
        rw [replaceFrom_think_block content y.2 y.1 hm]
        have hlen : y.2.length ≤ n := by
          have := congrArg List.length hc
          have h7 : openMarker.length = 7 := rfl
          simp only [List.length_cons, List.length_append] at this hl
          omega
        refine ih (a ++ (openMarker ++ (content ++ closeMarker))) w y.2 hlen ?_ ?_ ?_ hNo
        · intro p hp
          have := hC p hp
          rw [hc] at this
          simpa using this
        · intro p hp hpw; exact absurd hpw (hnone p hp)
        · intro p hp hpw; exact absurd hpw (hnone p hp)
      | none =>
        by_cases hO : openMarker <+: x :: t
        · have hcl : ¬ closeMarker <:+: (x :: t).drop 7 := by
            intro hcl
            exact (matchAtoms_think_none_iff (x :: t)).mp hm ⟨hO, hcl⟩
          rw [replaceFrom_no_match thinkRegex _ (x :: t) (think_none_suffix (x :: t) hcl)]
          exact no_region_of_unclosed w (x :: t) hNo hO hcl
        · rw [replaceFrom_think_step _ x t hm]
          have e : w ++ x :: replaceFrom thinkRegex (fun _ => []) t 0
              = (w ++ [x]) ++ replaceFrom thinkRegex (fun _ => []) t 0 := by simp
          rw [e]
          have hl1 : t.length ≤ n := by simp only [List.length_cons] at hl; omega
          refine ih (a ++ [x]) (w ++ [x]) t hl1 ?_ ?_ ?_ ?_
          · intro p hp
            have := hC p hp
            simpa using this
          · intro p hp hpw
            rcases List.suffix_concat_iff.mp hpw with h0 | ⟨q, hq, hqw⟩
            · exact absurd h0 (unfinished_ne_nil p hp)
            · rw [hq] at hp ⊢
              rcases unfinished_concat q x hp with h0 | hq1
              · rw [h0]; exact ⟨a, rfl⟩
              · obtain ⟨a0, ha0⟩ := hInv q hq1 hqw
                exact ⟨a0, by rw [← ha0]; simp⟩
          · intro p hp hpw
            rcases List.suffix_concat_iff.mp hpw with h0 | ⟨q, hq, hqw⟩
            · exact absurd h0 (unfinished_ne_nil p hp)
            · rw [hq] at hp ⊢
              rcases unfinished_concat q x hp with h0 | hq1
              · rw [h0]; simpa using hO
              · have := hE q hq1 hqw
                simpa using this
          · intro hopen
            rcases List.infix_concat_iff.mp hopen with h | h
            · rcases List.suffix_concat_iff.mp h with h0 | ⟨q, hq, hqw⟩
              · exact absurd h0 (by decide)
              · obtain ⟨hq1, hx⟩ := openMarker_concat q x hq
                apply hE q hq1 hqw
                rw [hq, hx]
                exact ⟨t, by simp⟩
            · exact hNo h

theorem remove_no_region (t : Str)
    (h : ∀ p ∈ unfinishedOpenings, ¬ (p ++ openMarker) <:+: t) :
    ¬ HasRegion (replaceFrom thinkRegex (fun _ => []) t 0) := by
  have := remove_scan t.length [] [] t (Nat.le_refl _) (by simpa using h)
    (fun p _ hp => hp)
    (fun p hp hpw => absurd (List.suffix_nil.mp hpw) (unfinished_ne_nil p hp))
    (by decide)
  simpa using this

theorem think_fixed_of_no_region (s : Str) (f : List Str → Str) (h : ¬ HasRegion s) :
    replaceFrom thinkRegex f s 0 = s := by
  apply replaceFrom_no_match
  intro u hu
  rw [matchAtoms_think_none_iff]
  rintro ⟨hO, hC⟩
  apply h
  obtain ⟨v, hv⟩ := hu
  obtain ⟨r, hr⟩ := hO
  refine ⟨v ++ openMarker, u.drop 7, ?_, ⟨v, [], by simp⟩, hC⟩
  rw [← hv, ← hr]
  have : openMarker.length = 7 := rfl
  simp [List.drop_append_of_le_length, this]

/-! ## The code-block step keeps the text free of thinking regions -/

theorem prefix_before_breaker (M : Str) (b : Char) (hb : b ∉ M) (x y : Str)
    (h : M <+: x ++ b :: y) : M <+: x := by
  rcases List.prefix_or_prefix_of_prefix h (List.prefix_append x (b :: y)) with h1 | h1
  · exact h1
  · obtain ⟨r, hr⟩ := h1
    rw [← hr] at h
    have h2 : r <+: b :: y := (List.prefix_append_right_inj x).mp h
    cases r with
    | nil => exact ⟨[], by rw [← hr]; simp⟩
    | cons c r =>
      exfalso
      have hc : c = b := (List.cons_prefix_cons.mp h2).1
      apply hb
      rw [← hr, ← hc]
      simp

theorem infix_split_breaker (M : Str) (b : Char) (hb : b ∉ M) (x y : Str)
    (h : M <:+: x ++ b :: y) : M <:+: x ∨ M <:+: y := by
  induction x with
  | nil =>
    rcases List.infix_cons_iff.mp h with h1 | h1
    · left
      exact (prefix_before_breaker M b hb [] y h1).isInfix
    · right; exact h1
  | cons c x ih =>
    rcases List.infix_cons_iff.mp h with h1 | h1
    · left
      exact (prefix_before_breaker M b hb (c :: x) y h1).isInfix
    · rcases ih h1 with h2 | h2
      · left; exact List.infix_cons_iff.mpr (Or.inr h2)
      · right; exact h2

theorem hasRegion_split_breaker (b : Char) (hbO : b ∉ openMarker) (hbC : b ∉ closeMarker)
    (x y : Str) (h : HasRegion (x ++ b :: y)) :
    HasRegion x ∨ HasRegion y ∨ (openMarker <:+: x ∧ closeMarker <:+: y) := by
  obtain ⟨s1, s2, he, h1, h2⟩ := h
  rcases List.append_eq_append_iff.mp he with ⟨c, hc, hs⟩ | ⟨a, ha, hs⟩
  · cases c with
    | nil =>
      rw [List.append_nil] at hc
      rw [List.nil_append] at hs
      rw [hc] at h1
      rw [← hs] at h2
      rcases infix_split_breaker closeMarker b hbC [] y h2 with h3 | h3
      · exact absurd h3 (by decide)
      · exact Or.inr (Or.inr ⟨h1, h3⟩)
    | cons d c =>
      have e := List.cons.inj hs
      rw [hc, ← e.1] at h1
      rcases infix_split_breaker openMarker b hbO x c h1 with h3 | h3
      · refine Or.inr (Or.inr ⟨h3, ?_⟩)
        rw [e.2]
        exact h2.trans ⟨c, [], by simp⟩
      · exact Or.inr (Or.inl ⟨c, s2, e.2, h3, h2⟩)
  · rw [hs] at h2
    rcases infix_split_breaker closeMarker b hbC a y h2 with h3 | h3
    · exact Or.inl ⟨s1, a, ha, h1, h3⟩
    · refine Or.inr (Or.inr ⟨?_, h3⟩)
      rw [ha]
      exact h1.trans ⟨[], a, by simp⟩

theorem hasRegion_mono (u x v : Str) (h : HasRegion x) : HasRegion (u ++ (x ++ v)) := by
  obtain ⟨s1, s2, he, h1, h2⟩ := h
  refine ⟨u ++ s1, s2 ++ v, by rw [he]; simp, ?_, ?_⟩
  · exact h1.trans ⟨u, [], by simp⟩
  · exact h2.trans ⟨[], v, by simp⟩

theorem hasRegion_across (a mid z : Str) (h1 : openMarker <:+: a) (h2 : closeMarker <:+: z) :
    HasRegion (a ++ (mid ++ z)) :=
  ⟨a, mid ++ z, rfl, h1, h2.trans ⟨mid, [], by simp⟩⟩

theorem hasRegion_drop_filler (b b2 : Char) (hbO : b ∉ openMarker) (hbC : b ∉ closeMarker)
    (h2O : b2 ∉ openMarker) (h2C : b2 ∉ closeMarker) (s : Str)
    (hsO : ¬ openMarker <:+: s) (hsC : ¬ closeMarker <:+: s) (a z n : Str)
    (h : HasRegion (a ++ b :: (s ++ b2 :: z))) : HasRegion (a ++ (n ++ z)) := by
  rcases hasRegion_split_breaker b hbO hbC a _ h with h1 | h1 | ⟨h1, h3⟩
  · have := hasRegion_mono [] a (n ++ z) h1
    simpa using this
  · rcases hasRegion_split_breaker b2 h2O h2C s z h1 with h4 | h4 | ⟨h4, _⟩
    · obtain ⟨s1, s2, he, h5, _⟩ := h4
      exact absurd (h5.trans ⟨[], s2, by rw [he]; simp⟩) hsO
    · have := hasRegion_mono (a ++ n) z [] h4
      simpa using this
    · exact absurd h4 hsO
  · rcases infix_split_breaker closeMarker b2 h2C s z h3 with h4 | h4
    · exact absurd h4 hsC
    · exact hasRegion_across a n z h1 h4

theorem trim_infix (s : Str) : ∃ x y, s = x ++ (trim s ++ y) := by
  obtain ⟨x, hx⟩ := List.dropWhile_suffix isWhiteSpace (l := s)
  obtain ⟨v, hv⟩ := List.dropWhile_suffix isWhiteSpace (l := (trimStart s).reverse)
  refine ⟨x, v.reverse, ?_⟩
  have h1 : trim s ++ v.reverse = trimStart s := by
    have := congrArg List.reverse hv
    rw [List.reverse_append, List.reverse_reverse] at this
    exact this
  rw [h1]
  exact hx.symm

theorem no_marker_of_no_lt (M s : Str) (hM : '<' ∈ M) (hs : '<' ∉ s) : ¬ M <:+: s :=
  fun h => hs (h.subset hM)

theorem langChar_no_lt (language : Str) (h : ∀ c ∈ language, isLangChar c = true) :
    '<' ∉ language := fun hm => absurd (h '<' hm) (by decide)

theorem codeBlock_keeps_regions (language filePath code : Str)
    (hl : ∀ c ∈ language, isLangChar c = true) (a z : Str)
    (h : HasRegion (a ++ (codeBlockReplacer [language, filePath, code] ++ z))) :
    HasRegion (a ++ (("```".toList ++ (language ++ (":".toList ++ (filePath ++ ("\n".toList
      ++ (code ++ "```".toList)))))) ++ z)) := by
  obtain ⟨x, y, hp⟩ := trim_infix filePath
  have hlt := langChar_no_lt language hl
  have e1 : a ++ (codeBlockReplacer [language, filePath, code] ++ z)
      = a ++ '*' :: ("*File:** ".toList ++ backtick ::
          (trim filePath ++ (backtick :: (("\n\n```".toList ++ language) ++ '\n' ::
            (code ++ ("```".toList ++ z)))))) := by
    simp [codeBlockReplacer, backtick]
  rw [e1] at h
  have h1 := hasRegion_drop_filler '*' backtick (by decide) (by decide) (by decide) (by decide)
    "*File:** ".toList (by decide) (by decide) a _ ("```".toList ++ (language ++ (":".toList ++ x))) h
  have e2 : a ++ ("```".toList ++ (language ++ (":".toList ++ x)) ++
        (trim filePath ++ (backtick :: (("\n\n```".toList ++ language) ++ '\n' ::
            (code ++ ("```".toList ++ z))))))
      = (a ++ ("```".toList ++ (language ++ (":".toList ++ x))) ++ trim filePath) ++
        backtick :: (("\n\n```".toList ++ language) ++ '\n' :: (code ++ ("```".toList ++ z))) := by
    simp
  rw [e2] at h1
  have hs : '<' ∉ "\n\n```".toList ++ language := by
    intro hm
    rcases List.mem_append.mp hm with h3 | h3
    · exact absurd h3 (by decide)
    · exact hlt h3
  have h2 := hasRegion_drop_filler backtick '\n' (by decide) (by decide) (by decide) (by decide)
    ("\n\n```".toList ++ language) (no_marker_of_no_lt _ _ (by decide) hs)
    (no_marker_of_no_lt _ _ (by decide) hs) _ _ (y ++ "\n".toList) h1
  have e3 : (a ++ ("```".toList ++ (language ++ (":".toList ++ x))) ++ trim filePath) ++
        ((y ++ "\n".toList) ++ (code ++ ("```".toList ++ z)))
      = a ++ (("```".toList ++ (language ++ (":".toList ++ (filePath ++ ("\n".toList
          ++ (code ++ "```".toList)))))) ++ z) := by
    conv_rhs => rw [hp]
    simp
  rw [e3] at h2
  exact h2

theorem replaceFrom_match_append (re : List Atom) (f : List Str → Str) (m rest : Str)
    (caps : List Str) (hm : m ≠ []) (h : matchAtoms re (m ++ rest) = some (caps, rest)) :
    replaceFrom re f (m ++ rest) 0 = f caps ++ replaceFrom re f rest 0 := by
  cases m with
  | nil => exact absurd rfl hm
  | cons c m => exact replaceFrom_match re f c m rest caps h

theorem fence_scan (n : Nat) : ∀ (w a t : Str), t.length ≤ n →
    (∀ z, HasRegion (w ++ z) → HasRegion (a ++ z)) →
    HasRegion (w ++ replaceFrom codeBlockRegex codeBlockReplacer t 0) → HasRegion (a ++ t) := by
  induction n with
  | zero =>
    intro w a t hl hrel h
    have ht : t = [] := List.length_eq_zero.mp (Nat.le_zero.mp hl)
    subst ht
    rw [codeBlockRegex_eq, replaceFrom_nil_lit] at h
    exact hrel [] h
  | succ n ih =>
    intro w a t hl hrel h
    cases t with
    | nil =>
      rw [codeBlockRegex_eq, replaceFrom_nil_lit] at h
      exact hrel [] h
    | cons x t =>
      cases hm : matchAtoms codeBlockRegex (x :: t) with
      | none =>
        rw [replaceFrom, hm] at h
        have hl1 : t.length ≤ n := by simp only [List.length_cons] at hl; omega
        have := ih (w ++ [x]) (a ++ [x]) t hl1
          (fun z hz => by
            have := hrel (x :: z) (by simpa using hz)
            simpa using this)
          (by simpa using h)
        simpa using this
      | some y =>
        obtain ⟨language, filePath, code, hcaps, hs, hlang⟩ :=
          matchAtoms_codeBlock_inv (x :: t) y.1 y.2 hm
        have e : x :: t = ("```".toList ++ (language ++ (":".toList ++ (filePath ++ ("\n".toList
            ++ (code ++ "```".toList)))))) ++ y.2 := by
          rw [hs]; simp
        rw [e] at hm h ⊢
        rw [replaceFrom_match_append codeBlockRegex codeBlockReplacer _ y.2 y.1 (by simp) hm,
          hcaps] at h
        have hlen : y.2.length ≤ n := by
          have := congrArg List.length e
          simp only [List.length_cons, List.length_append] at this hl
          have h3 : "```".toList.length = 3 := rfl
          omega
        have := ih (w ++ codeBlockReplacer [language, filePath, code])
          (a ++ ("```".toList ++ (language ++ (":".toList ++ (filePath ++ ("\n".toList
            ++ (code ++ "```".toList))))))) y.2 hlen
          (fun z hz => by
            have h5 := hrel (codeBlockReplacer [language, filePath, code] ++ z)
              (by simpa using hz)
            have := codeBlock_keeps_regions language filePath code hlang a z h5
            simpa using this)
          (by simpa using h)
        simpa using this

theorem codeBlock_no_new_region (s : Str)
    (h : HasRegion (replaceFrom codeBlockRegex codeBlockReplacer s 0)) : HasRegion s := by
  have := fence_scan s.length [] [] s (Nat.le_refl _) (fun z hz => hz) (by simpa using h)
  simpa using this

theorem formatText_remove_no_region (t : Str)
    (h : ∀ p ∈ unfinishedOpenings, ¬ (p ++ openMarker) <:+: t) :
    ¬ HasRegion (formatText t ThinkingOption.remove) := fun hr =>
  remove_no_region t h (codeBlock_no_new_region _ hr)

/-! ## The claims -/
/-- C1: for all strings `a`, `s`, `b` without `<`, `a` and `b` without a
backtick (`s` may hold anything else, newlines included),
`formatText(a + "<think>" + s + "</think>" + b, 'remove')` is `a + b`. -/
theorem formatText_remove_block (a s b : Str)
    (ha : '<' ∉ a) (hs : '<' ∉ s) (hb : '<' ∉ b)
    (ha' : backtick ∉ a) (hb' : backtick ∉ b) :
    formatText (a ++ "<think>".toList ++ s ++ "</think>".toList ++ b) ThinkingOption.remove
      = a ++ b := by
  simp only [formatText]
  rw [replace_think_block _ a s b ha hs hb]
  simp only [List.append_nil]
  exact replace_codeBlock_id _ _ (by simp [ha', hb'])

/-- C1 at the spec's example: removing the thinking block of
`"a<think>secret</think>b"` gives `"ab"`. -/
theorem formatText_remove_block_witness :
    formatText "a<think>secret</think>b".toList ThinkingOption.remove = "ab".toList :=
  formatText_remove_block "a".toList "secret".toList "b".toList
    (by decide) (by decide) (by decide) (by decide) (by decide)

/-- C2: for every language tag `L` (non-empty, over `[a-zA-Z0-9_-]`), every
path `P` (non-empty, without newline) and every code `C` without a triple
backtick, `formatText` in keep mode turns the fence opened as `L:P` into the
`**File:**` line with the trimmed path in inline code, a blank line, and the
fence opened as `L` around the code `C`, unchanged. -/
theorem formatText_codeBlock (L P C : Str) (hL : L ≠ []) (hLc : ∀ c ∈ L, isLangChar c = true)
    (hP : P ≠ []) (hPn : '\n' ∉ P) (hC : ¬ "```".toList <:+: C) :
    formatText ("```".toList ++ L ++ ":".toList ++ P ++ "\n".toList ++ C ++ "```".toList)
        ThinkingOption.keep
      = "**File:** `".toList ++ trim P ++ "`\n\n```".toList ++ L ++ "\n".toList ++ C
          ++ "```".toList := by
  obtain ⟨pre, post, hm, he, hlen⟩ := matchAtoms_codeBlock L P C hL hLc hP hPn hC
  have hin : "```".toList ++ L ++ ":".toList ++ P ++ "\n".toList ++ C ++ "```".toList
      = backtick :: (([backtick, backtick] ++ L ++ ":".toList ++ P ++ "\n".toList ++ pre
          ++ "```".toList) ++ post) := by
    have e3 : "```".toList = backtick :: [backtick, backtick] := by decide
    simp only [List.append_assoc] at he ⊢
    rw [← he, e3]
    simp
  have hm' : matchAtoms codeBlockRegex (backtick :: (([backtick, backtick] ++ L ++ ":".toList
      ++ P ++ "\n".toList ++ pre ++ "```".toList) ++ post)) = some ([L, P, pre], post) := by
    rw [← hin, ← hm]
    simp [List.append_assoc]
  simp only [formatText, replace]
  rw [hin, replaceFrom_match codeBlockRegex _ _ _ _ _ hm',
    codeBlockRegex, replaceFrom_short _ _ _ post (by simpa using hlen)]
  simp only [codeBlockReplacer, List.append_assoc] at he ⊢
  rw [he]

/-- C2 at the spec's example: the fence opened as `ts:src/app.ts` around
`code\n` becomes the `File:` line for `src/app.ts` and a fence opened as `ts`
around `code\n`. -/
theorem formatText_codeBlock_witness :
    formatText "```ts:src/app.ts\ncode\n```".toList ThinkingOption.keep
      = "**File:** `src/app.ts`\n\n```ts\ncode\n```".toList :=
  formatText_codeBlock "ts".toList "src/app.ts".toList "code\n".toList
    (by decide) (by decide) (by decide) (by decide) (by decide)

/-- C3: for every record list, every sequence of input lines (hence every
engine state the loop can reach) and every selection that `selectChats`
returns, through a number list or through `all`, every index of the selection
lies in `[0, N)` with `N` the number of records. -/
theorem selectChats_indices_in_range (rt : Runtime) (chatsData : List Chat) (lines : List Str)
    (selection : List Int) (h : selectChats rt chatsData lines = some selection) :
    ∀ i ∈ selection, 0 ≤ i ∧ i < (chatsData.length : Int) := by
  have hinv := inv_foldl rt chatsData lines _ (inv_initial chatsData)
  unfold selectChats at h
  split at h
  · next sel hctl =>
    have := Option.some.inj h
    subst this
    exact hinv.2 _ hctl
  · simp at h

/-- C3 on the sample records: after the keyword filter `sort`, the command
`ALL ` returns the positions 0 and 4, both inside the five records. -/
theorem selectChats_indices_in_range_witness :
    selectChats sampleRuntime sampleChats ["f".toList, "sort".toList, "ALL ".toList]
        = some [0, 4]
      ∧ ∀ i ∈ ([0, 4] : List Int), 0 ≤ i ∧ i < (sampleChats.length : Int) :=
  ⟨by decide,
   selectChats_indices_in_range sampleRuntime sampleChats
     ["f".toList, "sort".toList, "ALL ".toList] [0, 4] (by decide)⟩

theorem onCommand_commaList (chatsData : List Chat) (st : State) (ns : List Int) :
    onCommand chatsData st (commaList ns)
      = if (validNums chatsData (commaList ns)).length > 0 then
          { ctl := Ctl.done (validNums chatsData (commaList ns)), st := st }
        else { ctl := Ctl.pressEnter Notice.invalidSelection, st := st } := by
  have h := commaList_chars ns
  have hne : ∀ tok : Str, (∃ c ∈ tok, isNumChar c = false) → commaList ns ≠ tok := by
    intro tok ⟨c, hc, hn⟩ e
    rw [← e] at hc
    rw [(h c hc).1] at hn
    exact absurd hn (by simp)
  unfold onCommand
  rw [if_neg (hne _ ⟨'n', by decide, by decide⟩), if_neg (hne _ ⟨'p', by decide, by decide⟩),
    if_neg (hne _ ⟨'j', by decide, by decide⟩), if_neg (hne _ ⟨'f', by decide, by decide⟩),
    if_neg (hne _ ⟨'d', by decide, by decide⟩), if_neg (hne _ ⟨'e', by decide, by decide⟩),
    if_neg (hne _ ⟨'r', by decide, by decide⟩), if_neg (hne _ ⟨'s', by decide, by decide⟩),
    if_neg (hne _ ⟨'a', by decide, by decide⟩), if_neg (hne _ ⟨'q', by decide, by decide⟩)]

/-- C4: for every record list, every state and every input line that is a
comma-separated list of decimal integers `n1,...,nk`, the loop returns exactly
the values `n_j - 1` with `0 <= n_j - 1 < N`, in input order and with
duplicates kept; when no value is in range the input is rejected as an invalid
selection, the state is unchanged and the loop goes on. -/
theorem numeric_selection (rt : Runtime) (chatsData : List Chat) (st : State) (ns : List Int) :
    step rt chatsData { ctl := Ctl.command, st := st } (commaList ns)
      = if (ns.map (fun n => n - 1)).filter
            (fun v => decide (0 ≤ v ∧ v < (chatsData.length : Int))) = [] then
          { ctl := Ctl.pressEnter Notice.invalidSelection, st := st }
        else
          { ctl := Ctl.done ((ns.map (fun n => n - 1)).filter
              (fun v => decide (0 ≤ v ∧ v < (chatsData.length : Int)))), st := st } := by
  simp only [step]
  rw [command_of_commaList, onCommand_commaList, validNums_commaList]
  by_cases he : (ns.map (fun n => n - 1)).filter
      (fun v => decide (0 ≤ v ∧ v < (chatsData.length : Int))) = []
  · rw [if_pos he, he]; rfl
  · rw [if_neg he, if_pos (List.length_pos.mpr he)]

/-- C4 at the spec's example: the input `1,3,1` on the five sample records
returns the selection `[0, 2, 0]`. -/
theorem numeric_selection_witness :
    step sampleRuntime sampleChats { ctl := Ctl.command, st := initialState sampleChats }
        "1,3,1".toList
      = { ctl := Ctl.done [0, 2, 0], st := initialState sampleChats } :=
  numeric_selection sampleRuntime sampleChats (initialState sampleChats) [1, 3, 1]

/-- C5, as the claim states it, fails: in keep mode the fence opened as
`ts:src/app.ts` is still rewritten, so the output differs from the input. -/
theorem formatText_keep_changes_fence :
    formatText "```ts:src/app.ts\ncode\n```".toList ThinkingOption.keep
      ≠ "```ts:src/app.ts\ncode\n```".toList := by
  decide

/-- C5 amended: keep mode skips the thinking-block step only; `formatText(t,
'keep')` is `t` exactly when the code-block pattern (a fence opened as
`lang:path`) matches at no position of `t`. -/
theorem formatText_keep_eq_iff (t : Str) :
    formatText t ThinkingOption.keep = t
      ↔ ∀ u, u <:+ t → matchAtoms codeBlockRegex u = none := by
  simp only [formatText, replace]
  exact replace_codeBlock_eq_self_iff t

/-- C6: for all strings `a`, `s`, `b` without `<` and without a backtick,
`formatText(a + "<think>" + s + "</think>" + b, 'fold')` is `a`, the opening of
the folding wrapper with its label line, the trimmed `s`, the closing of the
wrapper, then `b`; this output contains neither `<think>` nor `</think>`. -/
theorem formatText_fold_block (a s b : Str)
    (ha : '<' ∉ a) (hs : '<' ∉ s) (hb : '<' ∉ b)
    (ha' : backtick ∉ a) (hs' : backtick ∉ s) (hb' : backtick ∉ b) :
    formatText (a ++ "<think>".toList ++ s ++ "</think>".toList ++ b) ThinkingOption.fold
      = a ++ "<details>\n<summary>Assistant\x27s thinking process</summary>\n\n".toList
          ++ trim s ++ "\n</details>".toList ++ b
    ∧ includes (formatText (a ++ "<think>".toList ++ s ++ "</think>".toList ++ b)
        ThinkingOption.fold) "<think>".toList = false
    ∧ includes (formatText (a ++ "<think>".toList ++ s ++ "</think>".toList ++ b)
        ThinkingOption.fold) "</think>".toList = false := by
  have hts : '<' ∉ trim s := fun h => hs (mem_trim h)
  have hts' : backtick ∉ trim s := fun h => hs' (mem_trim h)
  have hfo : backtick ∉ foldOpen := by decide
  have hfc : backtick ∉ foldClose := by decide
  have key : formatText (a ++ "<think>".toList ++ s ++ "</think>".toList ++ b)
      ThinkingOption.fold = a ++ (foldOpen ++ (trim s ++ (foldClose ++ (b ++ [])))) := by
    simp only [formatText]
    rw [replace_think_block _ a s b ha hs hb]
    simp only [foldReplacer]
    rw [replace_codeBlock_id _ _ (by simp [ha', hb', hts', hfo, hfc])]
    simp [List.append_assoc]
  refine ⟨?_, ?_, ?_⟩
  · rw [key]; simp [foldOpen, foldClose, List.append_assoc]
  · rw [key, show "<think>".toList = '<' :: "think>".toList from rfl,
      includes_skip _ _ a _ ha, includes_foldOpen _ _ (Or.inl rfl),
      includes_skip _ _ (trim s) _ hts, includes_foldClose _ _ (Or.inl rfl),
      includes_skip _ _ b _ hb, includes_nil_cons]
  · rw [key, show "</think>".toList = '<' :: "/think>".toList from rfl,
      includes_skip _ _ a _ ha, includes_foldOpen _ _ (Or.inr rfl),
      includes_skip _ _ (trim s) _ hts, includes_foldClose _ _ (Or.inr rfl),
      includes_skip _ _ b _ hb, includes_nil_cons]

/-- C6 at the spec's example: folding `"a<think> secret\n</think>b"` wraps the
trimmed content `secret` and leaves no raw marker. -/
theorem formatText_fold_block_witness :
    formatText "a<think> secret\n</think>b".toList ThinkingOption.fold
      = "a<details>\n<summary>Assistant\x27s thinking process</summary>\n\nsecret\n</details>b".toList
    ∧ includes (formatText "a<think> secret\n</think>b".toList ThinkingOption.fold)
        "<think>".toList = false
    ∧ includes (formatText "a<think> secret\n</think>b".toList ThinkingOption.fold)
        "</think>".toList = false :=
  formatText_fold_block "a".toList " secret\n".toList "b".toList
    (by decide) (by decide) (by decide) (by decide) (by decide) (by decide)

/-- C7: for every record list, every state and every non-empty keyword `s`,
after the keyword filter the filtered view is the full record list, in its
order, restricted to the records with at least one interaction whose human or
assistant message text contains `s` case-insensitively, and the current page
is 1. -/
theorem keyword_filter_view (rt : Runtime) (chatsData : List Chat) (st : State) (s : Str)
    (hs : s ≠ []) :
    (applyKeywordFilter rt chatsData st s).filteredChats
        = chatsData.filter (fun chat => decide (MatchesKeyword rt s chat))
      ∧ (applyKeywordFilter rt chatsData st s).currentPage = 1 := by
  have he : s.isEmpty = false := by cases s <;> simp at hs ⊢
  simp only [applyKeywordFilter, he, Bool.false_eq_true, if_false, and_true]
  apply List.filter_congr
  intro chat _
  by_cases h : MatchesKeyword rt s chat
  · simp [h, (keywordMatches_iff rt s hs chat).mpr h]
  · have : keywordMatches rt s chat = false := by
      rw [Bool.eq_false_iff]; exact fun hk => h ((keywordMatches_iff rt s hs chat).mp hk)
    simp [h, this]

/-- C7 on the sample records: the keyword `sort` keeps the first and the last
record, whatever the case of the letters in their messages. -/
theorem keyword_filter_view_witness :
    "sort".toList ≠ []
      ∧ ((applyKeywordFilter sampleRuntime sampleChats (initialState sampleChats)
            "sort".toList).filteredChats
          = sampleChats.filter (fun chat => decide (MatchesKeyword sampleRuntime "sort".toList chat))
        ∧ (applyKeywordFilter sampleRuntime sampleChats (initialState sampleChats)
            "sort".toList).currentPage = 1) :=
  ⟨by decide,
   keyword_filter_view sampleRuntime sampleChats (initialState sampleChats) "sort".toList
     (by decide)⟩

theorem applyDateFilter_view (rt : Runtime) (chatsData : List Chat) (st st' : State) (e : Str)
    (he : e ≠ []) :
    (applyDateFilter rt chatsData st e).appliedView
      = (applyDateFilter rt chatsData st' e).appliedView := by
  have hne : e.isEmpty = false := by cases e <;> simp at he ⊢
  simp only [applyDateFilter, hne, Bool.false_eq_true, if_false]
  split
  · split <;> rfl
  · rfl

theorem applyKeywordFilter_view (rt : Runtime) (chatsData : List Chat) (st st' : State) (s : Str)
    (hs : s ≠ []) :
    (applyKeywordFilter rt chatsData st s).filteredChats
      = (applyKeywordFilter rt chatsData st' s).filteredChats := by
  have hne : s.isEmpty = false := by cases s <;> simp at hs ⊢
  simp only [applyKeywordFilter, hne, Bool.false_eq_true, if_false]

/-- C8: for every record list, every state, every non-empty keyword `s` and
every non-empty date expression `e`, the view a filter produces is the view it
produces from the initial state, whose view is the full list; hence the same
keyword filter applied twice gives the view of applying it once, and a date
filter applied after a keyword filter gives the date filter's view over the
full list. -/
theorem filter_view_independent (rt : Runtime) (chatsData : List Chat) (st : State)
    (s e : Str) (hs : s ≠ []) (he : e ≠ []) :
    (applyKeywordFilter rt chatsData st s).filteredChats
        = (applyKeywordFilter rt chatsData (initialState chatsData) s).filteredChats
      ∧ (applyDateFilter rt chatsData st e).appliedView
        = (applyDateFilter rt chatsData (initialState chatsData) e).appliedView
      ∧ (applyKeywordFilter rt chatsData (applyKeywordFilter rt chatsData st s) s).filteredChats
        = (applyKeywordFilter rt chatsData st s).filteredChats
      ∧ (applyDateFilter rt chatsData (applyKeywordFilter rt chatsData st s) e).appliedView
        = (applyDateFilter rt chatsData (initialState chatsData) e).appliedView :=
  ⟨applyKeywordFilter_view rt chatsData _ _ s hs, applyDateFilter_view rt chatsData _ _ e he,
   applyKeywordFilter_view rt chatsData _ _ s hs, applyDateFilter_view rt chatsData _ _ e he⟩

/-- C8 on the sample records: the date filter `2024-05-02` applied after the
keyword filter `sort` gives the two records of that day, as it does from the
initial state. -/
theorem filter_view_independent_witness :
    (applyDateFilter sampleRuntime sampleChats
        (applyKeywordFilter sampleRuntime sampleChats (initialState sampleChats) "sort".toList)
        "2024-05-02".toList).appliedView
      = (applyDateFilter sampleRuntime sampleChats (initialState sampleChats)
          "2024-05-02".toList).appliedView :=
  (filter_view_independent sampleRuntime sampleChats (initialState sampleChats)
    "sort".toList "2024-05-02".toList (by decide) (by decide)).2.2.2

/-- C9, the code at the failing input: with one record shown and ten empty
records hidden the display has one page, and `n` on page 1 moves to page 2. -/
theorem next_page_passes_displayed_total :
    totalPages (initialState elevenChats) = 1
      ∧ (initialState elevenChats).currentPage = 1
      ∧ (step sampleRuntime elevenChats
          { ctl := Ctl.command, st := initialState elevenChats } "n".toList).st.currentPage = 2
      ∧ totalPages (step sampleRuntime elevenChats
          { ctl := Ctl.command, st := initialState elevenChats } "n".toList).st = 1 := by
  decide

/-- C10, the code at the failing input: with one record shown and ten empty
records hidden the display has one page, and the entry `2` at the page-number
prompt is accepted and sets the current page to 2. -/
theorem jump_accepts_page_beyond_displayed_total :
    totalPages (initialState elevenChats) = 1
      ∧ step sampleRuntime elevenChats
          { ctl := Ctl.pageNumber, st := initialState elevenChats } "2".toList
        = { ctl := Ctl.command, st := { initialState elevenChats with currentPage := 2 } } := by
  decide

set_option maxRecDepth 100000 in
/-- C11, the code on the sample records: the selection `[0, 2, 0]` gives the
title and three sections numbered 1, 2, 3 in selection order, the first and
the third with the same body; the selection `[0, 3, 0]`, whose second record
has no `interactions` field, makes `chat.interactions.forEach` throw and gives
no document. -/
theorem generateMarkdown_selection_with_absent_interactions :
    generateMarkdown sampleRuntime sampleChats
        { includeTimestamps := false, includeModelInfo := true,
          thinkingOption := ThinkingOption.keep } [0, 2, 0]
      = some ("# Cody Chat Exports\n\n".toList
          ++ "## Chat 1 - \n\n### Human:\n\nHow do I sort a list?\n\n".toList
          ++ "### Assistant:\n\nUse a merge sort.\n\n---\n\n".toList
          ++ "## Chat 2 - \n\n### Human:\n\nExplain monads\n\n".toList
          ++ "### Assistant:\n\nA Monad chains steps.\n\n---\n\n".toList
          ++ "## Chat 3 - \n\n### Human:\n\nHow do I sort a list?\n\n".toList
          ++ "### Assistant:\n\nUse a merge sort.\n\n---\n\n".toList)
    ∧ generateMarkdown sampleRuntime sampleChats
        { includeTimestamps := false, includeModelInfo := true,
          thinkingOption := ThinkingOption.keep } [0, 3, 0]
      = none := by
  decide

/-- C12, the code on the sample records, whose fourth record has no
`interactions` field: the default view hides the record, the keyword filter
and the search skip it, and exporting the selection that holds its index
throws, so that no document is produced. -/
theorem absent_interactions_break_export :
    (chatAt sampleChats 3).map (fun chat => chat.interactions) = some none
    ∧ (displayedChats (initialState sampleChats)).map (fun chat => chat.ref) = [10, 12, 14]
    ∧ (chatAt sampleChats 3).map (keywordMatches sampleRuntime "sort".toList) = some false
    ∧ (chatAt sampleChats 3).map (searchOneChat sampleRuntime "sort".toList) = some none
    ∧ generateMarkdown sampleRuntime sampleChats
        { includeTimestamps := true, includeModelInfo := true,
          thinkingOption := ThinkingOption.remove } [3]
      = none := by
  decide

/-- C13: for every record list whose records are distinct objects and every
state the loop reaches at its prompt, the command `all` ends the loop with
the selection made of the positions, in the full list, of the records of the
current filtered view, in view order and strictly increasing, whatever
showEmpty is; when the view is the full list the selection is `0, ..., N-1`. -/
theorem all_selects_filtered_view (rt : Runtime) (chatsData : List Chat) (lines : List Str)
    (hnd : (chatsData.map Chat.ref).Nodup)
    (hctl : (run rt chatsData lines).ctl = Ctl.command) :
    ∃ selection,
      step rt chatsData (run rt chatsData lines) "all".toList
          = { ctl := Ctl.done selection, st := (run rt chatsData lines).st }
        ∧ selection.map (chatAt chatsData)
          = (run rt chatsData lines).st.filteredChats.map some
        ∧ selection.Pairwise (fun i j => i < j)
        ∧ ((run rt chatsData lines).st.filteredChats = chatsData →
            selection = (List.range chatsData.length).map Int.ofNat) := by
  have hl : rt.toLowerCase "all".toList = "all".toList := by
    rw [rt.toLowerCase_ascii _ (by decide)]; rfl
  have hsub := run_view_sublist rt chatsData lines
  obtain ⟨h1, h2, _⟩ := indexOf_of_sublist chatsData _ hnd hsub
  refine ⟨(run rt chatsData lines).st.filteredChats.map (chatIndexOf chatsData), ?_, h1, h2, ?_⟩
  · generalize run rt chatsData lines = cfg at hctl
    obtain ⟨ctl, st⟩ := cfg
    simp only at hctl
    subst hctl
    simp only [step, hl]
    rw [show trim "all".toList = "all".toList by decide, onCommand_all]
  · intro hfull
    rw [hfull]
    exact indexOf_full_list chatsData hnd

/-- C13 on the sample records: after the keyword filter `sort`, with the
empty records hidden, `all` returns the positions 0 and 4. -/
theorem all_selects_filtered_view_witness :
    ∃ selection,
      step sampleRuntime sampleChats (run sampleRuntime sampleChats ["f".toList, "sort".toList])
          "all".toList
          = { ctl := Ctl.done selection,
              st := (run sampleRuntime sampleChats ["f".toList, "sort".toList]).st }
        ∧ selection.map (chatAt sampleChats)
          = (run sampleRuntime sampleChats ["f".toList, "sort".toList]).st.filteredChats.map some
        ∧ selection.Pairwise (fun i j => i < j)
        ∧ ((run sampleRuntime sampleChats ["f".toList, "sort".toList]).st.filteredChats
              = sampleChats →
            selection = (List.range sampleChats.length).map Int.ofNat) :=
  all_selects_filtered_view sampleRuntime sampleChats ["f".toList, "sort".toList]
    (by decide) (by decide)

/-- C14, the code at the failing input: after the date filter `2024-05-02`
the entry `abc` is rejected with the invalid-date notice, the view and the
page stay, and the date filter string is now `abc`. -/
theorem rejected_date_overwrites_dateFilter :
    (run sampleRuntime sampleChats ["d".toList, "2024-05-02".toList, "d".toList]).st.dateFilter
      = "2024-05-02".toList
    ∧ (run sampleRuntime sampleChats
        ["d".toList, "2024-05-02".toList, "d".toList, "abc".toList]).ctl
      = Ctl.pressEnter Notice.invalidDateFormat
    ∧ (run sampleRuntime sampleChats
        ["d".toList, "2024-05-02".toList, "d".toList, "abc".toList]).st.dateFilter
      = "abc".toList
    ∧ (run sampleRuntime sampleChats
        ["d".toList, "2024-05-02".toList, "d".toList, "abc".toList]).st.filteredChats
      = (run sampleRuntime sampleChats
        ["d".toList, "2024-05-02".toList, "d".toList]).st.filteredChats := by
  decide

/-- C15, as the claim states it, fails: the tokens `2abc` and `1.5` are read
by `parseInt` as 2 and 1 and contribute the indices 1 and 0. -/
theorem tokens_with_trailing_text_are_selected :
    selectChats sampleRuntime sampleChats ["2abc,1.5".toList] = some [1, 0] := by
  decide

/-- C15 amended: tokens are read by `parseInt`. Every index `i` of the
selection lies in `[0, N)` and comes from a token that `parseInt` reads, after
trimming, as `i + 1`. `parseInt` skips leading white space, reads an optional
sign and then the longest run of decimal digits, or of hexadecimal digits
after `0x`, and ignores the text after that run: for numerals up to `2 ^ 53`
it returns the signed value of the numeral. A text with no digit at that
place is read as `NaN`. When every token is read as `NaN` no index is
selected, and an input that is no command token and selects no index is
rejected as an invalid selection, the state unchanged. -/
theorem selection_reads_tokens_by_parseInt (chatsData : List Chat) (st : State) (command : Str) :
    (∀ i ∈ validNums chatsData command,
        0 ≤ i ∧ i < (chatsData.length : Int)
          ∧ ∃ tok ∈ split ',' command, parseInt (trim tok) = some (i + 1))
    ∧ (∀ (ws : Str) (sg : Str × Int) (n : Nat) (tail : Str),
        (∀ c ∈ ws, isWhiteSpace c = true) → sg ∈ signTexts → n ≤ 2 ^ 53 →
        (∀ c, tail.head? = some c →
          (digitValue 10 c).isSome = false ∧ (n = 0 → c ≠ 'x' ∧ c ≠ 'X')) →
        parseInt (ws ++ sg.1 ++ Nat.toDigits 10 n ++ tail) = some (sg.2 * (n : Int)))
    ∧ (∀ (ws : Str) (sg : Str × Int) (x : Char) (n : Nat) (tail : Str),
        (∀ c ∈ ws, isWhiteSpace c = true) → sg ∈ signTexts → (x = 'x' ∨ x = 'X') →
        n ≤ 2 ^ 53 →
        (∀ c, tail.head? = some c → (digitValue 16 c).isSome = false) →
        parseInt (ws ++ sg.1 ++ '0' :: x :: Nat.toDigits 16 n ++ tail) = some (sg.2 * (n : Int)))
    ∧ (∀ (ws : Str) (sg : Str × Int) (rest : Str),
        (∀ c ∈ ws, isWhiteSpace c = true) → sg ∈ signTexts →
        (∀ c, rest.head? = some c →
          (digitValue 10 c).isSome = false
            ∧ (sg.1 = [] → isWhiteSpace c = false ∧ c ≠ '+' ∧ c ≠ '-')) →
        parseInt (ws ++ sg.1 ++ rest) = none)
    ∧ ((∀ tok ∈ split ',' command, parseInt (trim tok) = none) →
        validNums chatsData command = [])
    ∧ (command ∉ commandTokens → validNums chatsData command = [] →
        onCommand chatsData st command
          = { ctl := Ctl.pressEnter Notice.invalidSelection, st := st }) := by
  refine ⟨?_, ?_, ?_, ?_, validNums_all_nan chatsData command, ?_⟩
  · intro i hi
    obtain ⟨h0, h1⟩ := validNums_range chatsData command i hi
    exact ⟨h0, h1, validNums_source chatsData command i hi⟩
  · intro ws sg n tail hws hsg _ ht
    have hhead : ∀ c, (Nat.toDigits 10 n ++ tail).head? = some c →
        isWhiteSpace c = false ∧ c ≠ '+' ∧ c ≠ '-' := by
      intro c hc
      obtain ⟨h1, h2, _⟩ := toDigits_spec n
      obtain ⟨d, ds, hd⟩ := List.exists_cons_of_ne_nil h1
      rw [hd] at hc h2
      have : d = c := Option.some.inj hc
      subst this
      have hp := digitChar_props d (h2 d (by simp))
      exact ⟨hp.2.1, hp.2.2.2.1, hp.2.2.1⟩
    rw [List.append_assoc (ws ++ sg.1), parseInt_shape ws sg _ hws hsg (fun _ => hhead),
      readBody_numeral sg.2 n tail ht]
  · intro ws sg x n tail hws hsg hx _ ht
    have hhead : ∀ c, ('0' :: x :: (Nat.toDigits 16 n ++ tail)).head? = some c →
        isWhiteSpace c = false ∧ c ≠ '+' ∧ c ≠ '-' := by
      intro c hc
      have : '0' = c := Option.some.inj hc
      subst this
      decide
    have e : ws ++ sg.1 ++ '0' :: x :: Nat.toDigits 16 n ++ tail
        = ws ++ sg.1 ++ ('0' :: x :: (Nat.toDigits 16 n ++ tail)) := by
      simp [List.append_assoc]
    rw [e, parseInt_shape ws sg _ hws hsg (fun _ => hhead), readBody_hex sg.2 x n tail hx ht]
  · intro ws sg rest hws hsg hrest
    rw [parseInt_shape ws sg rest hws hsg (fun he c hc => (hrest c hc).2 he),
      readBody_no_digit sg.2 rest (fun c hc => (hrest c hc).1)]
  · intro hnot hnil
    rw [onCommand_not_token chatsData st command hnot, hnil]
    rfl

/-- C15 amended, on tokens with a sign, white space, a hexadecimal numeral or
no digit: `-2abc` is read as -2, `+7.5` as 7, `0x1fz` as 31, and `abc` as
`NaN`. -/
theorem selection_reads_tokens_by_parseInt_witness :
    parseInt "-2abc".toList = some (-2) ∧ parseInt " +7.5".toList = some 7
      ∧ parseInt "0x1fz".toList = some 31 ∧ parseInt "abc".toList = none :=
  ⟨(congrArg parseInt (by decide)).trans
      (((selection_reads_tokens_by_parseInt [] (initialState []) []).2.1
        [] ("-".toList, -1) 2 "abc".toList (by decide) (by decide) (by decide)
        (by decide)).trans (by decide)),
   (congrArg parseInt (by decide)).trans
      (((selection_reads_tokens_by_parseInt [] (initialState []) []).2.1
        " ".toList ("+".toList, 1) 7 ".5".toList (by decide) (by decide) (by decide)
        (by decide)).trans (by decide)),
   (congrArg parseInt (by decide)).trans
      (((selection_reads_tokens_by_parseInt [] (initialState []) []).2.2.1
        [] ([], 1) 'x' 31 "z".toList (by decide) (by decide) (by decide) (by decide)
        (by decide)).trans (by decide)),
   (selection_reads_tokens_by_parseInt [] (initialState []) []).2.2.2.1
      [] ([], 1) "abc".toList (by decide) (by decide) (by decide)⟩

/-- C16: for every state, with `N` the length of the displayed list (the
filtered view, without the records that have no interaction unless showEmpty
is true), `totalPages` is the ceiling of `N / 10` (0 when `N = 0`); page `p`
with `1 <= p <= totalPages` lists the displayed records at the positions from
`(p-1)*10` up to `min(p*10, N)` exclusive; and the pages 1 to `totalPages`,
one after the other, are the displayed list. Of the twelve sample records,
three without interaction, 9 are displayed at first and 12 after `e`. -/
theorem page_count_and_contents (st : State) :
    ((displayedChats st).length ≤ 10 * totalPages st
        ∧ 10 * totalPages st < (displayedChats st).length + 10)
    ∧ ((displayedChats st).length = 0 → totalPages st = 0)
    ∧ (∀ p, 1 ≤ p → p ≤ totalPages st →
        pageChats { st with currentPage := p }
          = ((displayedChats st).drop ((p - 1) * 10)).take
              (min (p * 10) (displayedChats st).length - (p - 1) * 10))
    ∧ ((List.range (totalPages st)).map
        (fun k => pageChats { st with currentPage := k + 1 })).flatten = displayedChats st
    ∧ (∀ rt : Runtime,
        (displayedChats (initialState twelveChats)).length = 9
        ∧ (displayedChats (step rt twelveChats
            { ctl := Ctl.command, st := initialState twelveChats } "e".toList).st).length
          = 12) := by
  have hb := ceilDiv_bounds (displayedChats st).length
  have hpage : ∀ p, pageChats { st with currentPage := p }
      = ((displayedChats st).drop ((p - 1) * 10)).take 10 := fun p => pageChats_eq _
  refine ⟨hb, ?_, ?_, ?_, ?_⟩
  · intro h0
    have := hb.2
    unfold totalPages PAGE_SIZE
    omega
  · intro p h1 h2
    rw [hpage]
    apply List.ext_getElem?
    intro i
    simp only [List.getElem?_take, List.getElem?_drop]
    by_cases hi : i < 10
    · by_cases h3 : (p - 1) * 10 + i < (displayedChats st).length
      · have : i < min (p * 10) (displayedChats st).length - (p - 1) * 10 := by omega
        simp [hi, this]
      · have hn : (displayedChats st)[(p - 1) * 10 + i]? = none :=
          List.getElem?_eq_none (by omega)
        simp [hn]
    · have : ¬ i < min (p * 10) (displayedChats st).length - (p - 1) * 10 := by omega
      simp [hi, this]
  · have : (List.range (totalPages st)).map (fun k => pageChats { st with currentPage := k + 1 })
        = (List.range (totalPages st)).map
            (fun k => ((displayedChats st).drop (k * 10)).take 10) := by
      apply List.map_congr_left
      intro k _
      rw [hpage]
      simp
    rw [this]
    exact chunks_flatten _ _ hb.1
  · intro rt
    have hl : rt.toLowerCase "e".toList = "e".toList := by
      rw [rt.toLowerCase_ascii _ (by decide)]; rfl
    refine ⟨by decide, ?_⟩
    simp only [step, hl]
    decide

/-- C17, the code at the claim's example: the closing fence of the first
block, followed by `note: hi` and a newline, is matched as an opening fence
with the language `note` and the path `hi`, up to the opening fence of the
second block, and is rewritten. -/
theorem closing_fence_read_as_annotated_opening :
    formatText "```js\nA\n```note: hi\n```py\nB\n```".toList ThinkingOption.keep
      = "```js\nA\n**File:** `hi`\n\n```note\n```py\nB\n```".toList := by
  decide

/-- C18, the code at the claim's example: `replace('.json', '.md')` replaces
the first `.json` of the path, not the one at its end. -/
theorem outputFilePath_replaces_first_occurrence :
    outputFilePath none "data.json.d/chats.json".toList = "data.md.d/chats.json".toList := by
  decide

/-- C19, the code at the failing input: the text is 21 times U+0130 followed
by `x`, 22 units; in its lower-case form, 43 units, the query `x` is found at
position 42; the window is cut from the text itself at that position and is
empty, so the reported context is `......`, without the match. -/
theorem search_context_misses_match :
    indexOf (dottedRuntime.toLowerCase (List.replicate 21 (Char.ofNat 0x130) ++ ['x']))
        (dottedRuntime.toLowerCase "x".toList) = some 42
    ∧ (List.replicate 21 (Char.ofNat 0x130) ++ ['x']).length = 22
    ∧ (searchLines dottedRuntime "x".toList dottedChats 0).map (fun line => (line.1, line.2.2))
      = [(1, "......".toList)] := by
  decide

/-- C20, as the claim states it, fails at its own example: one pass removes
the inner block of `<think<think>x</think>>y</think>` and leaves
`<think>y</think>`, a thinking region that a second pass removes. -/
theorem remove_leaves_region_on_interleaved_markers :
    formatText "<think<think>x</think>>y</think>".toList ThinkingOption.remove
      = "<think>y</think>".toList
    ∧ formatText (formatText "<think<think>x</think>>y</think>".toList ThinkingOption.remove)
        ThinkingOption.remove
      ≠ formatText "<think<think>x</think>>y</think>".toList ThinkingOption.remove := by
  decide

/-- C20 amended: for every input `t` in which no `<think>` marker is directly
preceded by an unfinished beginning of the marker (`<`, `<t`, `<th`, `<thi`,
`<thin` or `<think`), the output of remove mode holds no `<think>` that is
followed later by `</think>`; the removal step applied to the output changes
nothing, so a second call in remove mode acts on the output as keep mode does.
Each unfinished beginning that the condition names is needed: placed directly
before a block `<think>x</think>` and completed by the text after the block,
it forms the region `<think>y</think>`, which is left. -/
theorem remove_leaves_no_region (t : Str)
    (h : ∀ p ∈ unfinishedOpenings, ¬ (p ++ "<think>".toList) <:+: t) :
    (∀ x y z : Str, formatText t ThinkingOption.remove
        ≠ x ++ "<think>".toList ++ y ++ "</think>".toList ++ z)
    ∧ replace thinkRegex (fun _ => []) (formatText t ThinkingOption.remove)
        = formatText t ThinkingOption.remove
    ∧ formatText (formatText t ThinkingOption.remove) ThinkingOption.remove
        = formatText (formatText t ThinkingOption.remove) ThinkingOption.keep
    ∧ (∀ p ∈ unfinishedOpenings,
        formatText (p ++ "<think>x</think>".toList ++ "<think>".toList.drop p.length
            ++ "y</think>".toList) ThinkingOption.remove
          = "<think>y</think>".toList) := by
  have hno : ¬ HasRegion (formatText t ThinkingOption.remove) :=
    formatText_remove_no_region t h
  have hfix : replace thinkRegex (fun _ => []) (formatText t ThinkingOption.remove)
      = formatText t ThinkingOption.remove :=
    think_fixed_of_no_region _ _ hno
  refine ⟨?_, hfix, ?_, by decide⟩
  · intro x y z e
    apply hno
    rw [e]
    exact hasRegion_of_parts x y z
  · show replace codeBlockRegex codeBlockReplacer
        (replace thinkRegex (fun _ => []) (formatText t ThinkingOption.remove))
      = replace codeBlockRegex codeBlockReplacer (formatText t ThinkingOption.remove)
    rw [hfix]

/-- C20 amended, on `<p>if (a < b)</p><think>use <b>x</b><think>y</think>z</think>bye`:
the input has tags, a stray `<` and nested markers, and meets the condition. -/
theorem remove_leaves_no_region_witness :
    (∀ p ∈ unfinishedOpenings, ¬ (p ++ "<think>".toList)
        <:+: "<p>if (a < b)</p><think>use <b>x</b><think>y</think>z</think>bye".toList)
    ∧ ((∀ x y z : Str,
          formatText "<p>if (a < b)</p><think>use <b>x</b><think>y</think>z</think>bye".toList
              ThinkingOption.remove
            ≠ x ++ "<think>".toList ++ y ++ "</think>".toList ++ z)
      ∧ replace thinkRegex (fun _ => [])
          (formatText "<p>if (a < b)</p><think>use <b>x</b><think>y</think>z</think>bye".toList
            ThinkingOption.remove)
        = formatText "<p>if (a < b)</p><think>use <b>x</b><think>y</think>z</think>bye".toList
            ThinkingOption.remove
      ∧ formatText
          (formatText "<p>if (a < b)</p><think>use <b>x</b><think>y</think>z</think>bye".toList
            ThinkingOption.remove) ThinkingOption.remove
        = formatText
          (formatText "<p>if (a < b)</p><think>use <b>x</b><think>y</think>z</think>bye".toList
            ThinkingOption.remove) ThinkingOption.keep
      ∧ (∀ p ∈ unfinishedOpenings,
          formatText (p ++ "<think>x</think>".toList ++ "<think>".toList.drop p.length
              ++ "y</think>".toList) ThinkingOption.remove
            = "<think>y</think>".toList)) :=
  ⟨by decide,
   remove_leaves_no_region
     "<p>if (a < b)</p><think>use <b>x</b><think>y</think>z</think>bye".toList (by decide)⟩

end CodyScribe
